import Mathlib

/-!
Verification of the deduplication / normalization engine of the
DJ-set-list catalog repository (scripts/daily_db_cleanup.py and
scripts/daily_house_sync.py), via a shallow embedding in Lean.

Strings are modelled as Lean `String` / `List Char`; the Python regex
character classes `\w` and `\s` are modelled at ASCII granularity
(`Char.isAlphanum || '_'` and the six ASCII whitespace characters),
which matches the behaviour of the Python code on ASCII catalog data.
Database rows are records; nullable columns are `Option`; Python
truthiness of a nullable column is modelled per column type
(`none`/empty string/zero are falsy).  Store ids model the store's
uuid primary keys as strings.
-/

/-- ASCII model of the Python regex class `\s`:
space, tab, newline, carriage return, vertical tab, form feed. -/
def isPySpace (c : Char) : Bool :=
  c = ' ' || c = '\t' || c = '\n' || c = '\r' || c = Char.ofNat 11 || c = Char.ofNat 12

/-- ASCII model of the Python regex class `\w`: alphanumeric or underscore. -/
def isWordChar (c : Char) : Bool := c.isAlphanum || c = '_'

/-- Replace every maximal run of characters satisfying `p` by the single
character `rep`; the flag records whether the previous character was in a
run (mirrors `re.sub(p+, rep, s)`). -/
def collapseRuns (p : Char → Bool) (rep : Char) : Bool → List Char → List Char
  | _, [] => []
  | prev, c :: rest =>
    if p c then
      (if prev then collapseRuns p rep true rest else rep :: collapseRuns p rep true rest)
    else c :: collapseRuns p rep false rest

/-- Drop the longest prefix of characters satisfying `p` (left strip). -/
def ltrim (p : Char → Bool) (l : List Char) : List Char := l.dropWhile p

/-- Drop the longest suffix of characters satisfying `p` (right strip). -/
def rtrim (p : Char → Bool) (l : List Char) : List Char :=
  (l.reverse.dropWhile p).reverse

/-- Strip characters satisfying `p` from both ends. -/
def stripEnds (p : Char → Bool) (l : List Char) : List Char := rtrim p (ltrim p l)

/-- Python `str.strip()` on a character list. -/
def pyStrip (l : List Char) : List Char := stripEnds isPySpace l

/-- Python `str.strip()` on a `String`. -/
def pyStripS (s : String) : String := ⟨pyStrip s.data⟩

/-- Python `str.lower()` (ASCII model). -/
def pyLower (l : List Char) : List Char := l.map Char.toLower

namespace DbCleanup

/-- Body of `normalize_text` from `scripts/daily_db_cleanup.py`:
`text.lower().strip()`, then `re.sub(r"[^\w\s]", "", ...)`,
then `re.sub(r"\s+", " ", ...)`, then a final `.strip()`. -/
def normalize_text_list (l : List Char) : List Char :=
  pyStrip (collapseRuns isPySpace ' ' false
    ((pyStrip (pyLower l)).filter (fun c => isWordChar c || isPySpace c)))

/-- `normalize_text` from `scripts/daily_db_cleanup.py` (the `if not text`
guard returns `""` for empty input). -/
def normalize_text (s : String) : String :=
  if s = "" then "" else ⟨normalize_text_list s.data⟩

/-- `generate_slug` from `scripts/daily_db_cleanup.py`: lowercase + strip,
drop characters outside `[\w\s-]`, turn runs of whitespace/underscore into
hyphens, collapse hyphen runs, strip hyphens at both ends. -/
def generate_slug (s : String) : String :=
  let l := pyStrip (pyLower s.data)
  let l := l.filter (fun c => isWordChar c || isPySpace c || c = '-')
  let l := collapseRuns (fun c => isPySpace c || c = '_') '-' false l
  let l := collapseRuns (fun c => c = '-') '-' false l
  ⟨rtrim (fun c => c = '-') (ltrim (fun c => c = '-') l)⟩

end DbCleanup

namespace HouseSync

/-- Body of `normalize_text` from `scripts/daily_house_sync.py`: identical
to the cleanup script's version except that the final `.strip()` is
missing — it returns the collapsed text directly. -/
def normalize_text_list (l : List Char) : List Char :=
  collapseRuns isPySpace ' ' false
    ((pyStrip (pyLower l)).filter (fun c => isWordChar c || isPySpace c))

/-- `normalize_text` from `scripts/daily_house_sync.py`. -/
def normalize_text (s : String) : String :=
  if s = "" then "" else ⟨normalize_text_list s.data⟩

end HouseSync

/-- Modelled from the spec (section 4.1): the specified normalizer —
lowercase, strip all characters that are not word characters or
whitespace, collapse internal whitespace runs to a single space, trim;
empty string for empty input.  (Collapsing all runs and then trimming
gives exactly "collapse internal runs, trim", since boundary runs are
removed by the trim either way.) -/
def spec_normalize (s : String) : String :=
  if s = "" then ""
  else ⟨pyStrip (collapseRuns isPySpace ' ' false
    ((pyLower s.data).filter (fun c => isWordChar c || isPySpace c)))⟩

/-!
## Collapse/strip interaction lemmas

These establish that the `.strip()` performed before punctuation removal in
`normalize_text` is redundant once the final `.strip()` runs: stripping the
input first never changes the final stripped, collapsed result.
-/

section CollapseLemmas

variable {p : Char → Bool} {rep : Char}

theorem collapse_true_absorb {pre : List Char} (hpre : ∀ c ∈ pre, p c)
    (y : List Char) :
    collapseRuns p rep true (pre ++ y) = collapseRuns p rep true y := by
  induction pre with
  | nil => rfl
  | cons a t ih =>
    have ha : p a = true := hpre a (by simp)
    simp [collapseRuns, ha, ih (fun c hc => hpre c (List.mem_cons_of_mem a hc))]

theorem collapse_true_eq (l : List Char) :
    collapseRuns p rep true l = collapseRuns p rep false (l.dropWhile p) := by
  induction l with
  | nil => rfl
  | cons a t ih =>
    by_cases h : p a = true
    · simp [collapseRuns, h, List.dropWhile_cons, ih]
    · simp [collapseRuns, h, List.dropWhile_cons]

theorem collapse_allp_true {l : List Char} (h : ∀ c ∈ l, p c) :
    collapseRuns p rep true l = [] := by
  induction l with
  | nil => rfl
  | cons a t ih =>
    have ha : p a = true := h a (by simp)
    simp [collapseRuns, ha, ih (fun c hc => h c (List.mem_cons_of_mem a hc))]

theorem collapse_allp_false {l : List Char} (h : ∀ c ∈ l, p c) :
    collapseRuns p rep false l = [] ∨ collapseRuns p rep false l = [rep] := by
  cases l with
  | nil => exact Or.inl rfl
  | cons a t =>
    have ha : p a = true := h a (by simp)
    have ht : collapseRuns p rep true t = [] :=
      collapse_allp_true (fun c hc => h c (List.mem_cons_of_mem a hc))
    right
    simp [collapseRuns, ha, ht]

theorem dropWhile_collapse_self {l : List Char} (h : l.dropWhile p = l) :
    (collapseRuns p rep false l).dropWhile p = collapseRuns p rep false l := by
  cases l with
  | nil => rfl
  | cons a t =>
    have hpa : p a = false := by
      by_cases hp : p a = true
      · exfalso
        rw [List.dropWhile_cons, if_pos hp] at h
        have hle := List.Sublist.length_le (h ▸ @List.dropWhile_sublist _ t p)
        simp at hle
      · simpa using hp
    simp [collapseRuns, hpa, List.dropWhile_cons]

theorem dropWhile_collapse (hp : p rep = true) (l : List Char) :
    (collapseRuns p rep false l).dropWhile p
      = collapseRuns p rep false (l.dropWhile p) := by
  cases l with
  | nil => rfl
  | cons a t =>
    by_cases h : p a = true
    · have step : collapseRuns p rep false (a :: t)
          = rep :: collapseRuns p rep false (t.dropWhile p) := by
        simp [collapseRuns, h, collapse_true_eq]
      rw [step, List.dropWhile_cons, if_pos hp,
        dropWhile_collapse_self (List.dropWhile_idempotent p t),
        List.dropWhile_cons, if_pos h]
    · simp [collapseRuns, h, List.dropWhile_cons]

theorem dropWhile_collapse_true (hp : p rep = true) (l : List Char) :
    (collapseRuns p rep true l).dropWhile p
      = (collapseRuns p rep false l).dropWhile p := by
  rw [collapse_true_eq, dropWhile_collapse_self (List.dropWhile_idempotent p l),
    dropWhile_collapse hp]

theorem dropWhile_collapse_append (hp : p rep = true) {pre : List Char}
    (hpre : ∀ c ∈ pre, p c) (y : List Char) :
    (collapseRuns p rep false (pre ++ y)).dropWhile p
      = (collapseRuns p rep false y).dropWhile p := by
  cases pre with
  | nil => rfl
  | cons a t =>
    have ha : p a = true := hpre a (by simp)
    have habs : collapseRuns p rep true (t ++ y) = collapseRuns p rep true y :=
      collapse_true_absorb (fun c hc => hpre c (by simp [hc])) y
    have step : collapseRuns p rep false ((a :: t) ++ y)
        = rep :: collapseRuns p rep true y := by
      simp [collapseRuns, ha, habs]
    rw [step, List.dropWhile_cons, if_pos hp, dropWhile_collapse_true hp]

theorem rev_dropWhile_collapse_append (hp : p rep = true) {suf : List Char}
    (hsuf : ∀ c ∈ suf, p c) (x : List Char) (prev : Bool) :
    ((collapseRuns p rep prev (x ++ suf)).reverse).dropWhile p
      = ((collapseRuns p rep prev x).reverse).dropWhile p := by
  induction x generalizing prev with
  | nil =>
    cases prev with
    | true => simp [List.nil_append, collapse_allp_true hsuf, collapseRuns]
    | false =>
      rcases @collapse_allp_false p rep suf hsuf with h | h <;>
        simp [collapseRuns, h, List.dropWhile_cons, hp]
  | cons c t ih =>
    by_cases hc : p c = true
    · cases prev with
      | true =>
        have lhs : collapseRuns p rep true ((c :: t) ++ suf)
            = collapseRuns p rep true (t ++ suf) := by simp [collapseRuns, hc]
        have rhs : collapseRuns p rep true (c :: t)
            = collapseRuns p rep true t := by simp [collapseRuns, hc]
        rw [lhs, rhs, ih true]
      | false =>
        have lhs : collapseRuns p rep false ((c :: t) ++ suf)
            = rep :: collapseRuns p rep true (t ++ suf) := by
          simp [collapseRuns, hc]
        have rhs : collapseRuns p rep false (c :: t)
            = rep :: collapseRuns p rep true t := by simp [collapseRuns, hc]
        rw [lhs, rhs]
        simp only [List.reverse_cons, List.dropWhile_append, ih true]
    · have lhs : collapseRuns p rep prev ((c :: t) ++ suf)
          = c :: collapseRuns p rep false (t ++ suf) := by
        cases prev <;> simp [collapseRuns, hc]
      have rhs : collapseRuns p rep prev (c :: t)
          = c :: collapseRuns p rep false t := by
        cases prev <;> simp [collapseRuns, hc]
      rw [lhs, rhs]
      simp only [List.reverse_cons, List.dropWhile_append, ih false]

theorem rtrim_collapse_append (hp : p rep = true) {suf : List Char}
    (hsuf : ∀ c ∈ suf, p c) (x : List Char) (prev : Bool) :
    rtrim p (collapseRuns p rep prev (x ++ suf))
      = rtrim p (collapseRuns p rep prev x) := by
  unfold rtrim
  rw [rev_dropWhile_collapse_append hp hsuf x prev]

theorem stripEnds_collapse_stripEnds {keep : Char → Bool} (hp : p rep = true)
    (hkeep : ∀ c, p c = true → keep c = true) (m : List Char) :
    stripEnds p (collapseRuns p rep false ((stripEnds p m).filter keep))
      = stripEnds p (collapseRuns p rep false (m.filter keep)) := by
  have hpre : ∀ c ∈ m.takeWhile p, p c := fun c hc => List.mem_takeWhile_imp hc
  have hsuf : ∀ c ∈ ((m.dropWhile p).reverse.takeWhile p).reverse, p c := by
    intro c hc
    rw [List.mem_reverse] at hc
    exact List.mem_takeWhile_imp hc
  have hv : m.dropWhile p
      = rtrim p (m.dropWhile p) ++ ((m.dropWhile p).reverse.takeWhile p).reverse := by
    unfold rtrim
    rw [← List.reverse_append, List.takeWhile_append_dropWhile, List.reverse_reverse]
  have hm : m = m.takeWhile p
      ++ (rtrim p (m.dropWhile p) ++ ((m.dropWhile p).reverse.takeWhile p).reverse) := by
    conv_lhs => rw [← List.takeWhile_append_dropWhile p m]
    rw [← hv]
  have hfpre : (m.takeWhile p).filter keep = m.takeWhile p :=
    List.filter_eq_self.mpr (fun a ha => hkeep a (hpre a ha))
  have hfsuf : (((m.dropWhile p).reverse.takeWhile p).reverse).filter keep
      = ((m.dropWhile p).reverse.takeWhile p).reverse :=
    List.filter_eq_self.mpr (fun a ha => hkeep a (hsuf a ha))
  have hstrip : stripEnds p m = rtrim p (m.dropWhile p) := rfl
  have hfm : m.filter keep = m.takeWhile p
      ++ ((rtrim p (m.dropWhile p)).filter keep
          ++ ((m.dropWhile p).reverse.takeWhile p).reverse) := by
    conv_lhs => rw [hm]
    rw [List.filter_append, List.filter_append, hfpre, hfsuf]
  rw [hfm, hstrip]
  unfold stripEnds ltrim
  rw [dropWhile_collapse_append hp hpre]
  rw [dropWhile_collapse hp, dropWhile_collapse hp, List.dropWhile_append]
  by_cases hx : ((rtrim p (m.dropWhile p)).filter keep).dropWhile p = []
  · rw [hx]
    simp only [List.isEmpty_nil, if_true]
    rw [List.dropWhile_eq_nil_iff.mpr hsuf]
  · rw [if_neg (by simpa [List.isEmpty_iff] using hx)]
    rw [rtrim_collapse_append hp hsuf _ false]

end CollapseLemmas

theorem head_not_p_of_dropWhile_eq_self {p : Char → Bool} {a : Char}
    {t : List Char} (h : (a :: t).dropWhile p = a :: t) : p a = false := by
  by_cases hp : p a = true
  · exfalso
    rw [List.dropWhile_cons, if_pos hp] at h
    have hle := List.Sublist.length_le (h ▸ @List.dropWhile_sublist _ t p)
    simp at hle
  · simpa using hp

theorem dropWhile_rtrim_of_dropWhile_eq_self {p : Char → Bool} {v : List Char}
    (h : v.dropWhile p = v) : (rtrim p v).dropWhile p = rtrim p v := by
  have hpref : v = rtrim p v ++ (v.reverse.takeWhile p).reverse := by
    unfold rtrim
    rw [← List.reverse_append, List.takeWhile_append_dropWhile, List.reverse_reverse]
  cases hr : rtrim p v with
  | nil => rfl
  | cons c rest =>
    have hv : v = c :: (rest ++ (v.reverse.takeWhile p).reverse) := by
      conv_lhs => rw [hpref, hr]
      rw [List.cons_append]
    have hc : p c = false := head_not_p_of_dropWhile_eq_self (hv ▸ h)
    rw [List.dropWhile_cons, if_neg (by simp [hc])]

theorem rtrim_idempotent (p : Char → Bool) (l : List Char) :
    rtrim p (rtrim p l) = rtrim p l := by
  unfold rtrim
  rw [List.reverse_reverse, List.dropWhile_idempotent]

theorem pyStrip_idempotent (l : List Char) : pyStrip (pyStrip l) = pyStrip l := by
  unfold pyStrip stripEnds ltrim
  rw [dropWhile_rtrim_of_dropWhile_eq_self (List.dropWhile_idempotent isPySpace l),
    rtrim_idempotent]

/-- C10, counterexample: the two `normalize_text` implementations are not the
same function — on `"a !"` the cleanup script returns `"a"` but the sync
script returns `"a "` (no final trim), which is also not the spec's trimmed
normalized form. -/
theorem C10_counterexample :
    DbCleanup.normalize_text "a !" = "a" ∧
    HouseSync.normalize_text "a !" = "a " ∧
    DbCleanup.normalize_text "a !" ≠ HouseSync.normalize_text "a !" ∧
    HouseSync.normalize_text "a !" ≠ spec_normalize "a !" := by decide

/-- C10, amended: `normalize_text` in daily_db_cleanup.py computes exactly the
spec's normalized form (lowercase, drop non-word/non-whitespace characters,
collapse whitespace runs, trim), while `normalize_text` in
daily_house_sync.py omits the final trim; the two agree up to that final
trim (cleanup = trim of house-sync), hence agree on every input where
removing punctuation exposes no boundary whitespace. -/
theorem C10_normalize_text_equivalence (s : String) :
    DbCleanup.normalize_text s = pyStripS (HouseSync.normalize_text s) ∧
    DbCleanup.normalize_text s = spec_normalize s := by
  constructor
  · by_cases h : s = ""
    · subst h; rfl
    · simp only [DbCleanup.normalize_text, HouseSync.normalize_text, if_neg h]
      rfl
  · by_cases h : s = ""
    · subst h; rfl
    · simp only [DbCleanup.normalize_text, spec_normalize, if_neg h]
      exact congrArg String.mk
        (stripEnds_collapse_stripEnds (by decide)
          (fun c hc => by simp [isWordChar, hc]) (pyLower s.data))

/-!
## Catalog data model

Rows of the six store collections the cleanup engine reads and writes
(`artists`, `tracks`, `sets`, `set_tracks`, `artist_aliases`,
`track_aliases`).  Ids model the store's uuid string primary keys.
Nullable columns are `Option`; columns the engine never touches are
omitted as opaque pass-through data.
-/

/-- Row of the `artists` table (columns used by the cleanup engine). -/
structure Artist where
  id : String
  name : String
  slug : Option String := none
  sets_count : Option Int := none
  tracks_count : Option Int := none
  spotify_url : Option String := none
  verified : Bool := false
deriving DecidableEq

/-- Row of the `tracks` table (columns used by the cleanup engine). -/
structure Track where
  id : String
  title : Option String := none
  title_normalized : Option String := none
  artist_id : Option String := none
  artist_name : Option String := none
  label : Option String := none
  bpm : Option Int := none
  key : Option String := none
  spotify_url : Option String := none
  beatport_url : Option String := none
  soundcloud_url : Option String := none
  youtube_url : Option String := none
  release_year : Option Int := none
  isrc : Option String := none
  artwork_url : Option String := none
  duration_seconds : Option Int := none
  times_played : Option Int := none
  verified : Bool := false
  enriched_at : Option String := none
deriving DecidableEq

/-- Row of the `sets` table (columns used by the cleanup engine;
`created_at` is fetched but never used, so it is omitted). -/
structure SetRow where
  id : String
  name : Option String := none
  artist_id : Option String := none
  artist_name : Option String := none
  external_id : Option String := none
  tracks_count : Option Int := none
deriving DecidableEq

/-- Row of the `set_tracks` join table (columns used by the engine;
position/timestamp/confidence are opaque pass-through). -/
structure SetTrack where
  id : String
  set_id : String
  track_id : Option String := none
  raw_artist : Option String := none
deriving DecidableEq

/-- Row of the `artist_aliases` table. -/
structure ArtistAlias where
  artist_id : String
  «alias» : String
  alias_lower : String
deriving DecidableEq

/-- Row of the `track_aliases` table. -/
structure TrackAlias where
  track_id : String
  title_alias : String
  title_alias_normalized : String
deriving DecidableEq

/-- The whole catalog store. -/
structure Catalog where
  artists : List Artist
  tracks : List Track
  sets : List SetRow
  set_tracks : List SetTrack
  artist_aliases : List ArtistAlias
  track_aliases : List TrackAlias
deriving DecidableEq

/-- Python truthiness of a nullable string column (`None` and `""` falsy). -/
def truthyStr : Option String → Bool
  | none => false
  | some s => s ≠ ""

/-- Python truthiness of a nullable integer column (`None` and `0` falsy). -/
def truthyInt : Option Int → Bool
  | none => false
  | some n => n ≠ 0

/-- Python `x or 0` on a nullable integer column. -/
def orZero : Option Int → Int
  | none => 0
  | some n => n

/-- One logged merge/fix decision; dry and wet runs must log the same list. -/
inductive Decision
  | mergeArtists (key : String) (canonical : String) (dups : List String)
  | mergeTracks (titleKey : String) (artistKey : String) (canonical : String)
      (dups : List String)
  | mergeSets (canonical : String) (dups : List String)
  | fixTrackNorm (trackId : String) (newNorm : String)
  | fixArtistSlug (artistId : String) (slug : String)
  | nullTrackRef (setTrackId : String)
  | deleteOrphan (setTrackId : String)
  | fixName (artistId : String) (newName : String)
  | fixCounts (artistId : String) (tracksCount : Int) (setsCount : Int)
deriving DecidableEq

/-- Result of one cleanup stage: the catalog afterwards, how many
insert/update/delete store calls were issued, and the decision log. -/
structure StageResult where
  cat : Catalog
  writes : Nat
  decisions : List Decision
deriving DecidableEq

/-- First-occurrence-order deduplication of a key list (the iteration
order of a Python dict built by insertion). -/
def dedupKeysAux {α : Type} [DecidableEq α] (seen : List α) : List α → List α
  | [] => []
  | k :: rest =>
    if k ∈ seen then dedupKeysAux seen rest
    else k :: dedupKeysAux (k :: seen) rest

theorem mem_dedupKeysAux {α : Type} [DecidableEq α] {x : α} :
    ∀ {seen l : List α}, x ∈ dedupKeysAux seen l ↔ x ∈ l ∧ x ∉ seen := by
  intro seen l
  induction l generalizing seen with
  | nil => simp [dedupKeysAux]
  | cons k rest ih =>
    by_cases h : k ∈ seen
    · rw [dedupKeysAux, if_pos h, ih]
      constructor
      · rintro ⟨hm, hs⟩
        exact ⟨List.mem_cons_of_mem k hm, hs⟩
      · rintro ⟨hm, hs⟩
        rcases List.mem_cons.mp hm with rfl | hm2
        · exact absurd h hs
        · exact ⟨hm2, hs⟩
    · rw [dedupKeysAux, if_neg h]
      constructor
      · intro hm
        rcases List.mem_cons.mp hm with rfl | hm2
        · exact ⟨List.mem_cons_self x rest, h⟩
        · rcases ih.mp hm2 with ⟨h1, h2⟩
          refine ⟨List.mem_cons_of_mem k h1, fun hx => h2 (List.mem_cons_of_mem k hx)⟩
      · rintro ⟨hm, hs⟩
        rcases List.mem_cons.mp hm with rfl | hm2
        · exact List.mem_cons_self x _
        · by_cases hxk : x = k
          · subst hxk; exact List.mem_cons_self x _
          · exact List.mem_cons_of_mem k (ih.mpr ⟨hm2, by
              intro hx
              rcases List.mem_cons.mp hx with h1 | h2
              · exact hxk h1
              · exact hs h2⟩)

namespace DbCleanup

/-!
## Artist Deduplication (`dedup_artists` in daily_db_cleanup.py)

The stage snapshots all artist rows up front, groups them by
`normalize_text(name)` (empty key excluded), sorts each group by score
descending (Python list.sort with reverse=True is stable, modelled by
the stable `List.insertionSort` on the reversed comparison), keeps the head
as canonical
and merges every other member into it.
-/

/-- Grouping key of an artist: its normalized name. -/
def artistKey (a : Artist) : String := normalize_text a.name

/-- The score used to pick the canonical artist of a duplicate group:
`(sets_count or 0) + (tracks_count or 0)`, `+10000` if verified,
`+100` if it has a spotify url. -/
def artistScore (a : Artist) : Int :=
  let s := orZero a.sets_count + orZero a.tracks_count
  let s := if a.verified then s + 10000 else s
  if truthyStr a.spotify_url then s + 100 else s

/-- Comparison for the descending stable sort of a duplicate group.
Python's `list.sort(key=score, reverse=True)` is a stable descending
sort; any stable sort under this relation computes the same list, and it
is modelled by the (stable, structurally recursive) insertion sort. -/
def artistR (a b : Artist) : Prop := artistScore b ≤ artistScore a

instance : DecidableRel artistR := fun a b => Int.decLe (artistScore b) (artistScore a)

instance : IsTotal Artist artistR :=
  ⟨fun a b => le_total (artistScore b) (artistScore a)⟩

instance : IsTrans Artist artistR :=
  ⟨fun _ _ _ hab hbc => le_trans hbc hab⟩

/-- Keys of the artist duplicate grouping, in dict insertion order. -/
def artistGroupKeys (as : List Artist) : List String :=
  dedupKeysAux [] ((as.map artistKey).filter (fun k => k ≠ ""))

/-- The duplicate group of key `k` (snapshot order is preserved). -/
def artistGroup (as : List Artist) (k : String) : List Artist :=
  as.filter (fun a => artistKey a = k)

/-- Merge one duplicate artist into the canonical one: re-point tracks and
sets (id and denormalized name), re-point `set_tracks.raw_artist`, upsert an
alias for the duplicate name (skipped if one with the same normalized form
already exists under the canonical), move the duplicate's aliases to the
canonical, delete the duplicate.  Returns the catalog and the number of
mutation calls issued. -/
def mergeArtistDup (canonical dup : Artist) (c : Catalog) : Catalog × Nat :=
  let tracks2 := c.tracks.map (fun t =>
    if t.artist_id = some dup.id then
      { t with artist_id := some canonical.id, artist_name := some canonical.name }
    else t)
  let sets2 := c.sets.map (fun s =>
    if s.artist_id = some dup.id then
      { s with artist_id := some canonical.id, artist_name := some canonical.name }
    else s)
  let sts2 := c.set_tracks.map (fun st =>
    if st.raw_artist = some dup.name then { st with raw_artist := some canonical.name }
    else st)
  let aliasLower := normalize_text dup.name
  let aliasExists := c.artist_aliases.any (fun al =>
    al.artist_id = canonical.id && al.alias_lower = aliasLower)
  let doInsert : Bool := dup.name ≠ canonical.name && !aliasExists
  let aliases2 :=
    if doInsert then c.artist_aliases ++ [⟨canonical.id, dup.name, aliasLower⟩]
    else c.artist_aliases
  let aliases3 := aliases2.map (fun al =>
    if al.artist_id = dup.id then { al with artist_id := canonical.id } else al)
  let artists2 := c.artists.filter (fun a => a.id ≠ dup.id)
  (⟨artists2, tracks2, sets2, sts2, aliases3, c.track_aliases⟩,
    3 + (if doInsert then 1 else 0) + 2)

/-- The decision logged for a duplicate group (nothing for groups of
size ≤ 1). -/
def groupArtistDecision (k : String) (g : List Artist) : List Decision :=
  match List.insertionSort artistR g with
  | [] => []
  | canonical :: dups =>
    if dups.isEmpty then [] else [Decision.mergeArtists k canonical.id (dups.map Artist.id)]

/-- Process one duplicate group: pick the canonical (head of the stable
descending sort), then — unless dry-run — merge each remaining member. -/
def processArtistGroup (dry_run : Bool) (k : String) (g : List Artist)
    (c : Catalog) : StageResult :=
  if g.length ≤ 1 then ⟨c, 0, []⟩
  else
    match List.insertionSort artistR g with
    | [] => ⟨c, 0, []⟩
    | canonical :: dups =>
      if dry_run then ⟨c, 0, groupArtistDecision k g⟩
      else
        let r := dups.foldl (fun (st : Catalog × Nat) d =>
          let m := mergeArtistDup canonical d st.1
          (m.1, st.2 + m.2)) (c, 0)
        ⟨r.1, r.2, groupArtistDecision k g⟩

/-- `dedup_artists`: group the snapshot of all artists by normalized name
and process every group, threading the evolving catalog. -/
def dedup_artists (c : Catalog) (dry_run : Bool) : StageResult :=
  let as := c.artists
  (artistGroupKeys as).foldl
    (fun (st : StageResult) k =>
      let r := processArtistGroup dry_run k (artistGroup as k) st.cat
      ⟨r.cat, st.writes + r.writes, st.decisions ++ r.decisions⟩)
    ⟨c, 0, []⟩

/-- Ids of the group members that would be merged away (the sorted tail). -/
def artistDupIds (g : List Artist) : List String :=
  if g.length ≤ 1 then [] else ((List.insertionSort artistR g).tail).map Artist.id

/-- All ids deleted by a wet run of `dedup_artists` on snapshot `as`. -/
def allArtistDupIds (as : List Artist) : List String :=
  (artistGroupKeys as).flatMap (fun k => artistDupIds (artistGroup as k))

end DbCleanup


namespace DbCleanup

theorem mergeArtistDup_artists (canonical dup : Artist) (c : Catalog) :
    ((mergeArtistDup canonical dup c).1).artists
      = c.artists.filter (fun a => a.id ≠ dup.id) := rfl

theorem foldMerge_artists (canonical : Artist) (dups : List Artist) :
    ∀ (c : Catalog) (w : Nat),
    ((dups.foldl (fun (st : Catalog × Nat) d =>
        let m := mergeArtistDup canonical d st.1
        (m.1, st.2 + m.2)) (c, w)).1).artists
      = c.artists.filter (fun a => a.id ∉ dups.map Artist.id) := by
  induction dups with
  | nil => intro c w; simp
  | cons d rest ih =>
    intro c w
    simp only [List.foldl_cons]
    rw [ih, mergeArtistDup_artists, List.filter_filter]
    apply List.filter_congr
    intro a _
    by_cases h1 : a.id = d.id <;> by_cases h2 : a.id ∈ rest.map Artist.id <;>
      simp [h1, h2]

theorem processArtistGroup_small (dry_run : Bool) (k : String) (g : List Artist)
    (c : Catalog) (h : g.length ≤ 1) :
    processArtistGroup dry_run k g c = ⟨c, 0, []⟩ := by
  unfold processArtistGroup
  rw [if_pos h]

theorem processArtistGroup_artists (k : String) (g : List Artist) (c : Catalog) :
    ((processArtistGroup false k g c).cat).artists
      = c.artists.filter (fun a => a.id ∉ artistDupIds g) := by
  by_cases h : g.length ≤ 1
  · rw [processArtistGroup_small false k g c h]
    unfold artistDupIds
    rw [if_pos h]
    simp
  · unfold processArtistGroup artistDupIds
    rw [if_neg h, if_neg h]
    cases hs : List.insertionSort artistR g with
    | nil => simp
    | cons canonical dups =>
      simp only [Bool.false_eq_true, if_false]
      rw [foldMerge_artists]
      simp

theorem dedup_artists_fold_artists (as : List Artist) (ks : List String) :
    ∀ (c0 : Catalog) (w : Nat) (ds : List Decision),
    ((ks.foldl (fun (st : StageResult) k =>
        let r := processArtistGroup false k (artistGroup as k) st.cat
        ⟨r.cat, st.writes + r.writes, st.decisions ++ r.decisions⟩)
      ⟨c0, w, ds⟩).cat).artists
      = c0.artists.filter
          (fun a => a.id ∉ ks.flatMap (fun k => artistDupIds (artistGroup as k))) := by
  induction ks with
  | nil => intro c0 w ds; simp
  | cons k rest ih =>
    intro c0 w ds
    simp only [List.foldl_cons]
    rw [ih, processArtistGroup_artists, List.filter_filter]
    apply List.filter_congr
    intro a _
    by_cases h1 : a.id ∈ artistDupIds (artistGroup as k) <;>
      by_cases h2 : a.id ∈ rest.flatMap (fun k2 => artistDupIds (artistGroup as k2)) <;>
      simp [List.flatMap_cons, h1, h2]

theorem dedup_artists_artists (c : Catalog) :
    ((dedup_artists c false).cat).artists
      = c.artists.filter (fun a => a.id ∉ allArtistDupIds c.artists) := by
  unfold dedup_artists allArtistDupIds
  exact dedup_artists_fold_artists c.artists (artistGroupKeys c.artists) c 0 []

theorem mem_artistGroupKeys {as : List Artist} {k : String} :
    k ∈ artistGroupKeys as ↔ (∃ a ∈ as, artistKey a = k) ∧ k ≠ "" := by
  unfold artistGroupKeys
  rw [mem_dedupKeysAux]
  simp [List.mem_filter, and_comm]

theorem survivors_length_le_one (c : Catalog) (k : String) (hk : k ≠ "") :
    (((dedup_artists c false).cat).artists.filter
        (fun a => artistKey a = k)).length ≤ 1 := by
  rw [dedup_artists_artists, List.filter_filter,
    ← List.countP_eq_length_filter]
  have step : (List.countP
      (fun a => decide (artistKey a = k) && decide (a.id ∉ allArtistDupIds c.artists))
      c.artists)
      = List.countP (fun a => a.id ∉ allArtistDupIds c.artists)
          (artistGroup c.artists k) := by
    unfold artistGroup
    rw [List.countP_filter]
    apply List.countP_congr
    intro a _
    by_cases h1 : artistKey a = k <;>
      by_cases h2 : a.id ∈ allArtistDupIds c.artists <;> simp [h1, h2]
  rw [step]
  by_cases hlen : (artistGroup c.artists k).length ≤ 1
  · exact le_trans (List.countP_le_length _) hlen
  · cases hs : List.insertionSort artistR (artistGroup c.artists k) with
    | nil =>
      exfalso
      have := List.perm_insertionSort artistR (artistGroup c.artists k)
      rw [hs] at this
      have hlen0 := this.length_eq
      simp at hlen0
      omega
    | cons canonical dups =>
      have hperm := List.perm_insertionSort artistR (artistGroup c.artists k)
      rw [hs] at hperm
      rw [← hperm.countP_eq, List.countP_cons]
      have hzero : List.countP (fun a => a.id ∉ allArtistDupIds c.artists) dups = 0 := by
        rw [List.countP_eq_zero]
        intro d hd
        simp only [decide_eq_true_eq, Decidable.not_not]
        have hdg : d ∈ artistGroup c.artists k :=
          hperm.mem_iff.mp (List.mem_cons_of_mem canonical hd)
        have hkmem : k ∈ artistGroupKeys c.artists := by
          rw [mem_artistGroupKeys]
          exact ⟨⟨d, (List.mem_filter.mp hdg).1,
            by simpa using (List.mem_filter.mp hdg).2⟩, hk⟩
        apply List.mem_flatMap.mpr
        refine ⟨k, hkmem, ?_⟩
        unfold artistDupIds
        rw [if_neg hlen, hs]
        exact List.mem_map_of_mem Artist.id hd
      rw [hzero]
      split <;> omega

theorem dedup_artists_fold_id (as : List Artist) (ks : List String)
    (h : ∀ k ∈ ks, (artistGroup as k).length ≤ 1) :
    ∀ (st : StageResult),
    (ks.foldl (fun (st : StageResult) k =>
        let r := processArtistGroup false k (artistGroup as k) st.cat
        ⟨r.cat, st.writes + r.writes, st.decisions ++ r.decisions⟩) st) = st := by
  induction ks with
  | nil => intro st; rfl
  | cons k rest ih =>
    intro st
    simp only [List.foldl_cons]
    rw [processArtistGroup_small false k _ _ (h k (List.mem_cons_self k rest))]
    have hstep : (⟨st.cat, st.writes + 0, st.decisions ++ []⟩ : StageResult) = st := by
      cases st; simp
    rw [hstep]
    exact ih (fun k2 hk2 => h k2 (List.mem_cons_of_mem k hk2)) st

theorem dedup_artists_id_of_no_groups (c : Catalog)
    (h : ∀ k ∈ artistGroupKeys c.artists, (artistGroup c.artists k).length ≤ 1) :
    dedup_artists c false = ⟨c, 0, []⟩ := by
  unfold dedup_artists
  exact dedup_artists_fold_id c.artists (artistGroupKeys c.artists) h ⟨c, 0, []⟩

/-- C3: the Artist Reconciler is idempotent.  After one (wet) run, every
nonempty normalized-name key has at most one surviving artist, so a second
run finds no duplicate group of size greater than one, logs no merge
decisions, issues zero writes, and leaves the catalog — in particular the
set of surviving canonical artist ids — unchanged. -/
theorem C3_dedup_artists_idempotent (c : Catalog) :
    dedup_artists (dedup_artists c false).cat false
        = ⟨(dedup_artists c false).cat, 0, []⟩ ∧
    ∀ k, k ≠ "" →
      ((artistGroup (dedup_artists c false).cat.artists k).length ≤ 1) := by
  have hsurv : ∀ k, k ≠ "" →
      ((artistGroup (dedup_artists c false).cat.artists k).length ≤ 1) := by
    intro k hk
    exact survivors_length_le_one c k hk
  refine ⟨?_, hsurv⟩
  apply dedup_artists_id_of_no_groups
  intro k hkmem
  have hk : k ≠ "" := (mem_artistGroupKeys.mp hkmem).2
  exact hsurv k hk

theorem mergeArtistDup_tracks (A B : Artist) (c : Catalog) :
    (mergeArtistDup A B c).1.tracks = c.tracks.map (fun t =>
      if t.artist_id = some B.id then
        { t with artist_id := some A.id, artist_name := some A.name }
      else t) := rfl

theorem mergeArtistDup_sets (A B : Artist) (c : Catalog) :
    (mergeArtistDup A B c).1.sets = c.sets.map (fun s =>
      if s.artist_id = some B.id then
        { s with artist_id := some A.id, artist_name := some A.name }
      else s) := rfl

/-- C4: merging duplicate artist B into canonical A preserves referential
integrity: afterwards no track or set row references B's id, the row counts
are unchanged, and every track/set row that referenced B now references A
with A's exact name denormalized. -/
theorem C4_merge_preserves_refs (c : Catalog) (A B : Artist) (hAB : A.id ≠ B.id) :
    ((mergeArtistDup A B c).1.tracks.length = c.tracks.length ∧
      (mergeArtistDup A B c).1.sets.length = c.sets.length) ∧
    (∀ t ∈ (mergeArtistDup A B c).1.tracks, t.artist_id ≠ some B.id) ∧
    (∀ s ∈ (mergeArtistDup A B c).1.sets, s.artist_id ≠ some B.id) ∧
    (∀ i (h1 : i < c.tracks.length) (h2 : i < (mergeArtistDup A B c).1.tracks.length),
      (c.tracks.get ⟨i, h1⟩).artist_id = some B.id →
      ((mergeArtistDup A B c).1.tracks.get ⟨i, h2⟩).artist_id = some A.id ∧
      ((mergeArtistDup A B c).1.tracks.get ⟨i, h2⟩).artist_name = some A.name) ∧
    (∀ i (h1 : i < c.sets.length) (h2 : i < (mergeArtistDup A B c).1.sets.length),
      (c.sets.get ⟨i, h1⟩).artist_id = some B.id →
      ((mergeArtistDup A B c).1.sets.get ⟨i, h2⟩).artist_id = some A.id ∧
      ((mergeArtistDup A B c).1.sets.get ⟨i, h2⟩).artist_name = some A.name) := by
  refine ⟨⟨by rw [mergeArtistDup_tracks, List.length_map],
           by rw [mergeArtistDup_sets, List.length_map]⟩, ?_, ?_, ?_, ?_⟩
  · intro t ht
    rw [mergeArtistDup_tracks] at ht
    rcases List.mem_map.mp ht with ⟨t0, _, rfl⟩
    by_cases h : t0.artist_id = some B.id
    · simp [h, hAB]
    · simp [h]
  · intro s hs
    rw [mergeArtistDup_sets] at hs
    rcases List.mem_map.mp hs with ⟨s0, _, rfl⟩
    by_cases h : s0.artist_id = some B.id
    · simp [h, hAB]
    · simp [h]
  · intro i h1 h2 hB
    have hmap : (mergeArtistDup A B c).1.tracks.get ⟨i, h2⟩
        = if (c.tracks.get ⟨i, h1⟩).artist_id = some B.id then
            { c.tracks.get ⟨i, h1⟩ with
              artist_id := some A.id, artist_name := some A.name }
          else c.tracks.get ⟨i, h1⟩ := by
      simp only [mergeArtistDup_tracks, List.get_eq_getElem, List.getElem_map]
    rw [hmap, if_pos hB]
    exact ⟨rfl, rfl⟩
  · intro i h1 h2 hB
    have hmap : (mergeArtistDup A B c).1.sets.get ⟨i, h2⟩
        = if (c.sets.get ⟨i, h1⟩).artist_id = some B.id then
            { c.sets.get ⟨i, h1⟩ with
              artist_id := some A.id, artist_name := some A.name }
          else c.sets.get ⟨i, h1⟩ := by
      simp only [mergeArtistDup_sets, List.get_eq_getElem, List.getElem_map]
    rw [hmap, if_pos hB]
    exact ⟨rfl, rfl⟩

/-- Concrete two-row catalog used to instantiate the C4 theorem. -/
def c4Catalog : Catalog :=
  ⟨[{ id := "a", name := "DJ One", verified := true },
    { id := "b", name := "dj one" }],
   [{ id := "t1", title := some "X", artist_id := some "b",
      artist_name := some "dj one" }],
   [{ id := "s1", name := some "Set", artist_id := some "b",
      artist_name := some "dj one" }],
   [], [], []⟩

/-- Concrete instantiation of C4: applies the theorem at `c4Catalog`,
discharging the id-distinctness hypothesis there. -/
theorem C4_merge_preserves_refs_witness :
    (({ id := "a", name := "DJ One", verified := true } : Artist).id
        ≠ ({ id := "b", name := "dj one" } : Artist).id) ∧
    ((mergeArtistDup { id := "a", name := "DJ One", verified := true }
        { id := "b", name := "dj one" } c4Catalog).1.tracks.length
      = c4Catalog.tracks.length ∧
     (mergeArtistDup { id := "a", name := "DJ One", verified := true }
        { id := "b", name := "dj one" } c4Catalog).1.sets.length
      = c4Catalog.sets.length) :=
  ⟨by decide,
   (C4_merge_preserves_refs c4Catalog
     { id := "a", name := "DJ One", verified := true }
     { id := "b", name := "dj one" } (by decide)).1⟩

/-- C5, counterexample: canonical selection is score-based, not
lexicographic.  A verified member loses to an unverified member whose
`sets_count + tracks_count` exceeds the 10000 weight, and a member with
strictly greater richness loses to one that merely has a spotify link
(the 100 weight). -/
theorem C5_counterexample :
    (let g1 : List Artist := [{ id := "a1", name := "N", sets_count := some 20000 },
                             { id := "a2", name := "N", verified := true }]
     ((List.insertionSort artistR g1).head?.map Artist.verified = some false)
       ∧ (∃ a ∈ g1, a.verified)) ∧
    (let x : Artist := { id := "b1", name := "M", sets_count := some 1 }
     let y : Artist := { id := "b2", name := "M", spotify_url := some "u" }
     orZero y.sets_count + orZero y.tracks_count
         < orZero x.sets_count + orZero x.tracks_count
       ∧ x.verified = y.verified
       ∧ ((List.insertionSort artistR [x, y]).head?.map Artist.id = some "b2")) := by
  decide

/-- C5, amended: the chosen canonical attains the maximal score
(`sets_count + tracks_count`, +10000 verified, +100 spotify link).
Consequently a verified member is chosen whenever every unverified
member's score stays below the 10000 verified weight (and verified
members have non-negative richness), and among members of equal verified
status a richness advantage of more than 100 always outranks the link
bonus. -/
theorem C5_canonical_score_maximal (g : List Artist) (canonical : Artist)
    (dups : List Artist) (hsort : List.insertionSort artistR g = canonical :: dups) :
    (∀ a ∈ g, artistScore a ≤ artistScore canonical) ∧
    ((∃ a ∈ g, a.verified) →
      (∀ a ∈ g, a.verified = false → artistScore a < 10000) →
      (∀ a ∈ g, a.verified = true → 0 ≤ orZero a.sets_count + orZero a.tracks_count) →
      canonical.verified) ∧
    (∀ a ∈ g, ∀ b ∈ g, a.verified = b.verified →
      orZero b.sets_count + orZero b.tracks_count + 100
          < orZero a.sets_count + orZero a.tracks_count →
      artistScore b < artistScore a) := by
  have hperm := List.perm_insertionSort artistR g
  rw [hsort] at hperm
  have hmax : ∀ a ∈ g, artistScore a ≤ artistScore canonical := by
    have hsorted := List.sorted_insertionSort artistR g
    rw [hsort] at hsorted
    intro a ha
    rcases List.mem_cons.mp (hperm.mem_iff.mpr ha) with rfl | hdup
    · exact le_refl _
    · exact (List.pairwise_cons.mp hsorted).1 a hdup
  refine ⟨hmax, ?_, ?_⟩
  · rintro ⟨a, ha, hav⟩ hsmall hnn
    by_contra hcan
    have hcmem : canonical ∈ g := hperm.mem_iff.mp (List.mem_cons_self _ _)
    have hcs : artistScore canonical < 10000 :=
      hsmall canonical hcmem (by simpa using hcan)
    have has : (10000 : Int) ≤ artistScore a := by
      have h0 := hnn a ha hav
      simp only [artistScore, hav, if_true]
      by_cases hl : truthyStr a.spotify_url <;> simp [hl] <;> omega
    have := hmax a ha
    omega
  · intro a ha b hb hab hgt
    simp only [artistScore]
    rw [← hab]
    by_cases hv : a.verified <;> by_cases h1 : truthyStr a.spotify_url <;>
      by_cases h2 : truthyStr b.spotify_url <;> simp [hv, h1, h2] <;> omega

/-- Concrete instantiation of the amended C5 theorem: a verified artist
outscores an unverified duplicate with no data. -/
theorem C5_canonical_score_maximal_witness :
    (([{ id := "w1", name := "W" },
       { id := "w2", name := "W", verified := true }] : List Artist).insertionSort artistR
        = [{ id := "w2", name := "W", verified := true },
           { id := "w1", name := "W" }]) ∧
    artistScore { id := "w1", name := "W" }
      ≤ artistScore { id := "w2", name := "W", verified := true } :=
  ⟨by decide,
   (C5_canonical_score_maximal
      [{ id := "w1", name := "W" }, { id := "w2", name := "W", verified := true }]
      { id := "w2", name := "W", verified := true }
      [{ id := "w1", name := "W" }] (by decide)).1
     { id := "w1", name := "W" } (by decide)⟩

/-!
## Track Deduplication (`dedup_tracks` in daily_db_cleanup.py)

Groups the snapshot of all tracks by `(title_normalized or
normalize_text(title), normalize_text(artist_name))`, keeps the
highest-scoring member and merges the rest into it.  Note: the fetch
selects only `label`, `bpm`, `spotify_url`, `beatport_url` and
`soundcloud_url` of the eleven fields in the backfill list, so
`canonical.get(field)`/`dup.get(field)` is `None` for `key`,
`youtube_url`, `release_year`, `isrc`, `artwork_url` and
`duration_seconds` and those columns are never copied.
-/

/-- Normalized-title component of a track's grouping key:
`(t.get("title_normalized") or normalize_text(t.get("title",""))).strip()`. -/
def trackTitleNorm (t : Track) : String :=
  pyStripS (if truthyStr t.title_normalized then t.title_normalized.getD ""
            else normalize_text (t.title.getD ""))

/-- Normalized-artist component of a track's grouping key. -/
def trackArtistNorm (t : Track) : String := normalize_text (t.artist_name.getD "")

/-- The grouping key of a track. -/
def trackKey (t : Track) : String × String := (trackTitleNorm t, trackArtistNorm t)

/-- The score used to pick the canonical track of a duplicate group. -/
def trackScore (t : Track) : Int :=
  let s : Int := 0
  let s := if t.verified then s + 10000 else s
  let s := if truthyStr t.enriched_at then s + 1000 else s
  let s := if truthyStr t.spotify_url then s + 100 else s
  let s := if truthyInt t.bpm then s + 50 else s
  let s := if truthyStr t.label then s + 25 else s
  let s := if truthyStr t.beatport_url then s + 25 else s
  s + orZero t.times_played

/-- Descending stable comparison for the track sort. -/
def trackR (a b : Track) : Prop := trackScore b ≤ trackScore a

instance : DecidableRel trackR := fun a b => Int.decLe (trackScore b) (trackScore a)

instance : IsTotal Track trackR := ⟨fun a b => le_total (trackScore b) (trackScore a)⟩

instance : IsTrans Track trackR := ⟨fun _ _ _ hab hbc => le_trans hbc hab⟩

/-- Keys of the track duplicate grouping (tracks whose normalized title is
empty are excluded), in dict insertion order. -/
def trackGroupKeys (ts : List Track) : List (String × String) :=
  dedupKeysAux [] ((ts.map trackKey).filter (fun k => k.1 ≠ ""))

/-- The duplicate group of track key `k`. -/
def trackGroup (ts : List Track) (k : String × String) : List Track :=
  ts.filter (fun t => trackKey t = k)

/-- Merge one duplicate track into the canonical one.  `canonical` and
`dup` are the rows as fetched in the stage snapshot — the backfill and the
play-count sum read `canonical.get(...)` from this snapshot, not from the
current store state.  Returns the catalog and the writes issued. -/
def mergeTrackDup (canonical dup : Track) (c : Catalog) : Catalog × Nat :=
  let sts2 := c.set_tracks.map (fun st =>
    if st.track_id = some dup.id then { st with track_id := some canonical.id }
    else st)
  let aliasNorm := normalize_text (dup.title.getD "")
  let needAlias : Bool := truthyStr dup.title && dup.title ≠ canonical.title
  let aliasExists := c.track_aliases.any (fun al =>
    al.track_id = canonical.id && al.title_alias_normalized = aliasNorm)
  let doInsert : Bool := needAlias && !aliasExists
  let aliases2 :=
    if doInsert then c.track_aliases ++ [⟨canonical.id, dup.title.getD "", aliasNorm⟩]
    else c.track_aliases
  let aliases3 := aliases2.map (fun al =>
    if al.track_id = dup.id then { al with track_id := canonical.id } else al)
  let bfLabel := !truthyStr canonical.label && truthyStr dup.label
  let bfBpm := !truthyInt canonical.bpm && truthyInt dup.bpm
  let bfSpotify := !truthyStr canonical.spotify_url && truthyStr dup.spotify_url
  let bfBeatport := !truthyStr canonical.beatport_url && truthyStr dup.beatport_url
  let bfSoundcloud := !truthyStr canonical.soundcloud_url && truthyStr dup.soundcloud_url
  let haveUpdates : Bool := bfLabel || bfBpm || bfSpotify || bfBeatport || bfSoundcloud
  let tracks2 :=
    if haveUpdates then
      c.tracks.map (fun t =>
        if t.id = canonical.id then
          { t with
            label := if bfLabel then dup.label else t.label,
            bpm := if bfBpm then dup.bpm else t.bpm,
            spotify_url := if bfSpotify then dup.spotify_url else t.spotify_url,
            beatport_url := if bfBeatport then dup.beatport_url else t.beatport_url,
            soundcloud_url := if bfSoundcloud then dup.soundcloud_url else t.soundcloud_url }
        else t)
    else c.tracks
  let combinedPlays := orZero canonical.times_played + orZero dup.times_played
  let tracks3 := tracks2.map (fun t =>
    if t.id = canonical.id then { t with times_played := some combinedPlays } else t)
  let tracks4 := tracks3.filter (fun t => t.id ≠ dup.id)
  (⟨c.artists, tracks4, c.sets, sts2, c.artist_aliases, aliases3⟩,
    1 + (if doInsert then 1 else 0) + 1 + (if haveUpdates then 1 else 0) + 1 + 1)

/-- The decision logged for one track duplicate group. -/
def groupTrackDecision (k : String × String) (g : List Track) : List Decision :=
  match List.insertionSort trackR g with
  | [] => []
  | canonical :: dups =>
    if dups.isEmpty then []
    else [Decision.mergeTracks k.1 k.2 canonical.id (dups.map Track.id)]

/-- Process one track duplicate group. -/
def processTrackGroup (dry_run : Bool) (k : String × String) (g : List Track)
    (c : Catalog) : StageResult :=
  if g.length ≤ 1 then ⟨c, 0, []⟩
  else
    match List.insertionSort trackR g with
    | [] => ⟨c, 0, []⟩
    | canonical :: dups =>
      if dry_run then ⟨c, 0, groupTrackDecision k g⟩
      else
        let r := dups.foldl (fun (st : Catalog × Nat) d =>
          let m := mergeTrackDup canonical d st.1
          (m.1, st.2 + m.2)) (c, 0)
        ⟨r.1, r.2, groupTrackDecision k g⟩

/-- `dedup_tracks`: group the snapshot of all tracks and process every
group, threading the evolving catalog. -/
def dedup_tracks (c : Catalog) (dry_run : Bool) : StageResult :=
  let ts := c.tracks
  (trackGroupKeys ts).foldl
    (fun (st : StageResult) k =>
      let r := processTrackGroup dry_run k (trackGroup ts k) st.cat
      ⟨r.cat, st.writes + r.writes, st.decisions ++ r.decisions⟩)
    ⟨c, 0, []⟩

/-- C1 (code bug): when two duplicates are merged into the same canonical,
the backfill checks `canonical.get(field)` on the stale stage snapshot, not
the current stored row.  With the canonical's label absent and two
duplicates carrying labels, the first merge stores `LabelA`; the second
merge then overwrites this present stored value with `LabelB`. -/
theorem C1_backfill_overwrites_present_value :
    (let can : Track :=
       { id := "c", title := some "Song", title_normalized := some "song",
         artist_name := some "DJ", verified := true }
     let d1 : Track :=
       { id := "d1", title := some "Song", title_normalized := some "song",
         artist_name := some "DJ", label := some "LabelA" }
     let d2 : Track :=
       { id := "d2", title := some "Song", title_normalized := some "song",
         artist_name := some "DJ", label := some "LabelB" }
     let c0 : Catalog := ⟨[], [can, d1, d2], [], [], [], []⟩
     (((mergeTrackDup can d1 c0).1.tracks.find? (fun t => t.id = "c")).map Track.label
        = some (some "LabelA")) ∧
     (((dedup_tracks c0 false).cat.tracks.find? (fun t => t.id = "c")).map Track.label
        = some (some "LabelB")) ∧
     ("LabelA" : String) ≠ "LabelB") := by decide

/-- C2 (code bug): the play-count aggregation also reads the canonical's
count from the stale snapshot, so with duplicates of 10 and 100 plays
merged into a canonical with 1 play the final stored count is 11 (the
second merge discards the first), not the group sum 111. -/
theorem C2_times_played_not_group_sum :
    (let can : Track :=
       { id := "c", title := some "Song", title_normalized := some "song",
         artist_name := some "DJ", times_played := some 1, verified := true }
     let d1 : Track :=
       { id := "d1", title := some "Song", title_normalized := some "song",
         artist_name := some "DJ", times_played := some 10 }
     let d2 : Track :=
       { id := "d2", title := some "Song", title_normalized := some "song",
         artist_name := some "DJ", times_played := some 100 }
     let c0 : Catalog := ⟨[], [can, d1, d2], [], [], [], []⟩
     (((dedup_tracks c0 false).cat.tracks.find? (fun t => t.id = "c")).map
         Track.times_played = some (some 11)) ∧
     orZero can.times_played + orZero d1.times_played + orZero d2.times_played
        = (111 : Int) ∧
     ((11 : Int) ≠ 111)) := by decide

/-!
## Set Deduplication (`dedup_sets` in daily_db_cleanup.py)

Two independent groupings over the snapshot of all sets — by external id
(when truthy) and by `(normalize_text(name), normalize_text(artist_name))`
(when the name normalizes non-empty).  Groups of size > 1 from both
sources are processed, de-duplicated by their member-id set.  Within a
group the member with the most tracks survives; each duplicate first has
all its SetTrack rows deleted and is then deleted itself.
-/

/-- Normalized name component of a set's name-grouping key. -/
def setNameNorm (s : SetRow) : String := normalize_text (s.name.getD "")

/-- Normalized artist component of a set's name-grouping key. -/
def setArtistNorm (s : SetRow) : String := normalize_text (s.artist_name.getD "")

/-- Descending comparison on `tracks_count or 0` (stable sort). -/
def setR (a b : SetRow) : Prop := orZero b.tracks_count ≤ orZero a.tracks_count

instance : DecidableRel setR :=
  fun a b => Int.decLe (orZero b.tracks_count) (orZero a.tracks_count)

instance : IsTotal SetRow setR :=
  ⟨fun a b => le_total (orZero b.tracks_count) (orZero a.tracks_count)⟩

instance : IsTrans SetRow setR := ⟨fun _ _ _ hab hbc => le_trans hbc hab⟩

/-- Python `frozenset` equality of two id lists. -/
def sameIdSet (g1 g2 : List String) : Bool :=
  g1.all (fun x => x ∈ g2) && g2.all (fun x => x ∈ g1)

/-- Keep groups of size > 1, dropping any group whose member-id set was
already seen (mirrors the `seen_set_ids` frozenset check). -/
def dedupSetGroups (seen : List (List String)) :
    List (List SetRow) → List (List SetRow)
  | [] => []
  | g :: rest =>
    if g.length ≤ 1 then dedupSetGroups seen rest
    else
      let ids := g.map SetRow.id
      if seen.any (fun s => sameIdSet s ids) then dedupSetGroups seen rest
      else g :: dedupSetGroups (ids :: seen) rest

/-- All candidate duplicate set groups: external-id groups first, then
name groups, de-duplicated by member-id set. -/
def allSetGroups (ss : List SetRow) : List (List SetRow) :=
  let extKeys := dedupKeysAux []
    ((ss.filter (fun s => truthyStr s.external_id)).map (fun s => s.external_id.getD ""))
  let extGroups := extKeys.map (fun e => ss.filter (fun s => s.external_id = some e))
  let nameKeys := dedupKeysAux []
    ((ss.map (fun s => (setNameNorm s, setArtistNorm s))).filter (fun k => k.1 ≠ ""))
  let nameGroups := nameKeys.map (fun k =>
    ss.filter (fun s => (setNameNorm s, setArtistNorm s) = k))
  dedupSetGroups [] (extGroups ++ nameGroups)

/-- Delete all SetTrack rows of one set (the first half of a duplicate
set removal). -/
def deleteSetTracksOf (setId : String) (c : Catalog) : Catalog :=
  { c with set_tracks := c.set_tracks.filter (fun st => st.set_id ≠ setId) }

/-- Delete one set row (the second half of a duplicate set removal). -/
def deleteSetRow (setId : String) (c : Catalog) : Catalog :=
  { c with sets := c.sets.filter (fun s => s.id ≠ setId) }

/-- Remove one duplicate set: its SetTrack rows are deleted first, then
the Set row itself (two writes). -/
def processSetDup (c : Catalog) (dup : SetRow) : Catalog × Nat :=
  (deleteSetRow dup.id (deleteSetTracksOf dup.id c), 2)

/-- The decision logged for one duplicate set group. -/
def groupSetDecision (g : List SetRow) : List Decision :=
  match List.insertionSort setR g with
  | [] => []
  | canonical :: dups =>
    if dups.isEmpty then []
    else [Decision.mergeSets canonical.id (dups.map SetRow.id)]

/-- Process one duplicate set group (all collected groups have > 1
member): sort by `tracks_count` descending, keep the head, delete the
rest. -/
def processSetGroup (dry_run : Bool) (g : List SetRow) (c : Catalog) : StageResult :=
  match List.insertionSort setR g with
  | [] => ⟨c, 0, []⟩
  | _ :: dups =>
    if dry_run then ⟨c, 0, groupSetDecision g⟩
    else
      let r := dups.foldl (fun (st : Catalog × Nat) d =>
        let m := processSetDup st.1 d
        (m.1, st.2 + m.2)) (c, 0)
      ⟨r.1, r.2, groupSetDecision g⟩

/-- `dedup_sets`: process every candidate duplicate group, threading the
evolving catalog. -/
def dedup_sets (c : Catalog) (dry_run : Bool) : StageResult :=
  let ss := c.sets
  (allSetGroups ss).foldl
    (fun (st : StageResult) g =>
      let r := processSetGroup dry_run g st.cat
      ⟨r.cat, st.writes + r.writes, st.decisions ++ r.decisions⟩)
    ⟨c, 0, []⟩

/-- Every SetTrack row references a live Set row. -/
def setTracksLive (c : Catalog) : Prop :=
  ∀ st ∈ c.set_tracks, ∃ s ∈ c.sets, s.id = st.set_id

theorem processSetDup_live {c : Catalog} (dup : SetRow) (h : setTracksLive c) :
    setTracksLive (processSetDup c dup).1 := by
  intro st hst
  have hst2 : st ∈ c.set_tracks ∧ st.set_id ≠ dup.id := by
    have := List.mem_filter.mp hst
    exact ⟨this.1, by simpa using this.2⟩
  rcases h st hst2.1 with ⟨s, hs, heq⟩
  refine ⟨s, ?_, heq⟩
  apply List.mem_filter.mpr
  refine ⟨hs, ?_⟩
  simp only [decide_eq_true_eq]
  rw [heq]
  exact hst2.2

theorem foldSetDups_live (dups : List SetRow) :
    ∀ (c : Catalog) (w : Nat), setTracksLive c →
    setTracksLive ((dups.foldl (fun (st : Catalog × Nat) d =>
      let m := processSetDup st.1 d
      (m.1, st.2 + m.2)) (c, w)).1) := by
  induction dups with
  | nil => intro c w h; exact h
  | cons d rest ih =>
    intro c w h
    simp only [List.foldl_cons]
    exact ih _ _ (processSetDup_live d h)

theorem processSetGroup_live (g : List SetRow) (c : Catalog)
    (h : setTracksLive c) : setTracksLive (processSetGroup false g c).cat := by
  unfold processSetGroup
  cases List.insertionSort setR g with
  | nil => exact h
  | cons canonical dups =>
    simp only [Bool.false_eq_true, if_false]
    exact foldSetDups_live dups c 0 h

theorem dedup_sets_fold_live (gs : List (List SetRow)) :
    ∀ (st : StageResult), setTracksLive st.cat →
    setTracksLive ((gs.foldl (fun (st : StageResult) g =>
      let r := processSetGroup false g st.cat
      ⟨r.cat, st.writes + r.writes, st.decisions ++ r.decisions⟩) st).cat) := by
  induction gs with
  | nil => intro st h; exact h
  | cons g rest ih =>
    intro st h
    simp only [List.foldl_cons]
    exact ih _ (processSetGroup_live g st.cat h)

/-- C8, counterexample: the stage only guarantees that the duplicates it
removes leave no orphans; a pre-existing SetTrack row whose set reference
was already dead survives the stage untouched, so "after the stage no
SetTrack references a non-live Set" is false in general. -/
theorem C8_counterexample :
    (let c0 : Catalog := ⟨[], [], [{ id := "s1" }],
       [{ id := "st1", set_id := "ghost" }], [], []⟩
     ((dedup_sets c0 false).cat.set_tracks.any (fun st =>
        (dedup_sets c0 false).cat.sets.all (fun s => s.id ≠ st.set_id)) = true) ∧
     (dedup_sets c0 false).cat.set_tracks = c0.set_tracks) := by decide

/-- C8, amended: for every duplicate set removal the SetTrack rows of the
duplicate are deleted first — at the intermediate state no SetTrack
references the duplicate while the sets table is still untouched, and the
removal is exactly that deletion followed by deleting the Set row — and
the stage never creates orphans: if every SetTrack referenced a live Set
before the stage, the same holds after it completes. -/
theorem C8_set_cascade_ordering (c : Catalog) (dup : SetRow)
    (horph : setTracksLive c) :
    ((deleteSetTracksOf dup.id c).set_tracks.all
        (fun st => st.set_id ≠ dup.id) = true ∧
     (deleteSetTracksOf dup.id c).sets = c.sets ∧
     (processSetDup c dup).1 = deleteSetRow dup.id (deleteSetTracksOf dup.id c)) ∧
    setTracksLive (dedup_sets c false).cat := by
  refine ⟨⟨?_, rfl, rfl⟩, ?_⟩
  · rw [List.all_eq_true]
    intro st hst
    exact (List.mem_filter.mp hst).2
  · unfold dedup_sets
    exact dedup_sets_fold_live (allSetGroups c.sets) ⟨c, 0, []⟩ horph

/-- Concrete catalog for the C8 witness: two sets sharing an external id,
each with a SetTrack row. -/
def c8wCatalog : Catalog :=
  ⟨[], [],
   [{ id := "s1", external_id := some "x", tracks_count := some 2 },
    { id := "s2", external_id := some "x", tracks_count := some 1 }],
   [{ id := "st1", set_id := "s1" }, { id := "st2", set_id := "s2" }],
   [], []⟩

/-- Concrete instantiation of the amended C8 theorem at `c8wCatalog`,
discharging the orphan-freeness hypothesis there. -/
theorem C8_set_cascade_ordering_witness :
    ((deleteSetTracksOf "s2" c8wCatalog).set_tracks.all
        (fun st => st.set_id ≠ "s2") = true) ∧
    ((dedup_sets c8wCatalog false).cat.set_tracks.all (fun st =>
        (dedup_sets c8wCatalog false).cat.sets.any
          (fun s => s.id = st.set_id)) = true) := by
  have h := C8_set_cascade_ordering c8wCatalog
    { id := "s2", external_id := some "x", tracks_count := some 1 }
    (by unfold setTracksLive; decide)
  refine ⟨h.1.1, ?_⟩
  rw [List.all_eq_true]
  intro st hst
  rcases h.2 st hst with ⟨s, hs, heq⟩
  rw [List.any_eq_true]
  exact ⟨s, hs, by simp [heq]⟩

/-!
## Consistency Fixer part 1 (`fix_normalization` in daily_db_cleanup.py)

Three passes threading the catalog: repair `title_normalized` on tracks,
fill missing artist slugs, then clean orphaned `set_tracks` rows
(deleting rows whose set is gone, nulling track references to deleted
tracks).  The orphan pass reuses the track snapshot fetched for pass 1.
-/

/-- Expected normalized title of a track: `normalize_text(t.get("title",""))`. -/
def trackNormExpected (t : Track) : String := normalize_text (t.title.getD "")

/-- Stored normalized title as compared by the fixer:
`(t.get("title_normalized") or "").strip()`. -/
def trackNormCurrent (t : Track) : String := pyStripS (t.title_normalized.getD "")

/-- The fixer updates a track iff the expected normalized title is
non-empty and differs from the stripped stored value. -/
def trackNormGuard (t : Track) : Bool :=
  trackNormExpected t ≠ "" && trackNormExpected t ≠ trackNormCurrent t

/-- Store update `tracks SET title_normalized = v WHERE id = tid`. -/
def setTrackNormTo (tid v : String) (ts : List Track) : List Track :=
  ts.map (fun t2 => if t2.id = tid then { t2 with title_normalized := some v } else t2)

/-- One step of the normalized-title repair loop. -/
def fixTrackNormStep (dry_run : Bool) (acc : StageResult) (t : Track) : StageResult :=
  if trackNormGuard t then
    ⟨if dry_run then acc.cat
     else { acc.cat with tracks := setTrackNormTo t.id (trackNormExpected t) acc.cat.tracks },
     acc.writes + (if dry_run then 0 else 1),
     acc.decisions ++ [Decision.fixTrackNorm t.id (trackNormExpected t)]⟩
  else acc

/-- The slug pass updates an artist iff a slug can be generated and the
stored slug is falsy (`if expected_slug and not a.get("slug")`). -/
def artistSlugGuard (a : Artist) : Bool :=
  generate_slug a.name ≠ "" && !truthyStr a.slug

/-- One step of the missing-slug repair loop. -/
def fixArtistSlugStep (dry_run : Bool) (acc : StageResult) (a : Artist) : StageResult :=
  if artistSlugGuard a then
    ⟨if dry_run then acc.cat
     else { acc.cat with artists := acc.cat.artists.map (fun a2 =>
        if a2.id = a.id then { a2 with slug := some (generate_slug a.name) } else a2) },
     acc.writes + (if dry_run then 0 else 1),
     acc.decisions ++ [Decision.fixArtistSlug a.id (generate_slug a.name)]⟩
  else acc

/-- One step of the orphan scan: a SetTrack whose set is dead is queued
for deletion; one whose track reference is truthy but dead gets the
reference nulled immediately. -/
def orphanTrackGuard (track_ids : List String) (st : SetTrack) : Bool :=
  truthyStr st.track_id && st.track_id.getD "" ∉ track_ids

def orphanScanStep (dry_run : Bool) (set_ids track_ids : List String)
    (acc : StageResult × List String) (st : SetTrack) : StageResult × List String :=
  if st.set_id ∉ set_ids then (acc.1, acc.2 ++ [st.id])
  else if orphanTrackGuard track_ids st then
    (⟨if dry_run then acc.1.cat
      else { acc.1.cat with set_tracks := acc.1.cat.set_tracks.map (fun st2 =>
          if st2.id = st.id then { st2 with track_id := none } else st2) },
      acc.1.writes + (if dry_run then 0 else 1),
      acc.1.decisions ++ [Decision.nullTrackRef st.id]⟩, acc.2)
  else acc

/-- One step of the orphan delete loop. -/
def orphanDeleteStep (dry_run : Bool) (acc : StageResult) (oid : String) : StageResult :=
  ⟨if dry_run then acc.cat
   else { acc.cat with set_tracks := acc.cat.set_tracks.filter (fun st => st.id ≠ oid) },
   acc.writes + (if dry_run then 0 else 1),
   acc.decisions ++ [Decision.deleteOrphan oid]⟩

/-- `fix_normalization`: the three repair passes in source order.  The
track snapshot of pass 1 is reused for the orphan pass's live-track-id
set; sets and set_tracks are fetched when the orphan pass starts. -/
def fix_normalization (c : Catalog) (dry_run : Bool) : StageResult :=
  let tracks := c.tracks
  let r1 := tracks.foldl (fixTrackNormStep dry_run) ⟨c, 0, []⟩
  let r2 := r1.cat.artists.foldl (fixArtistSlugStep dry_run) r1
  let set_ids := r2.cat.sets.map SetRow.id
  let track_ids := tracks.map Track.id
  let r3 := r2.cat.set_tracks.foldl (orphanScanStep dry_run set_ids track_ids) (r2, [])
  r3.2.foldl (orphanDeleteStep dry_run) r3.1

theorem pyStripS_normalize_text (s : String) :
    pyStripS (normalize_text s) = normalize_text s := by
  unfold normalize_text
  by_cases h : s = ""
  · rw [if_pos h]; rfl
  · rw [if_neg h]
    show String.mk (pyStrip (normalize_text_list s.data)) = _
    exact congrArg String.mk (pyStrip_idempotent _)

/-- The per-row effect of the update issued for snapshot row `t`. -/
def trackNormApply (t x : Track) : Track :=
  if x.id = t.id then { x with title_normalized := some (trackNormExpected t) } else x

/-- The combined effect of the whole repair loop on one stored row. -/
def trackNormChain (S : List Track) (x : Track) : Track :=
  S.foldl (fun x t => if trackNormGuard t then trackNormApply t x else x) x

theorem pass1_tracks (S : List Track) :
    ∀ (acc : StageResult),
    ((S.foldl (fixTrackNormStep false) acc).cat).tracks
      = S.foldl (fun T t => if trackNormGuard t then T.map (trackNormApply t) else T)
          acc.cat.tracks := by
  induction S with
  | nil => intro acc; rfl
  | cons t S' ih =>
    intro acc
    simp only [List.foldl_cons]
    rw [ih]
    by_cases hg : trackNormGuard t
    · have hstep : (fixTrackNormStep false acc t).cat.tracks
          = acc.cat.tracks.map (trackNormApply t) := by
        unfold fixTrackNormStep
        rw [if_pos hg]
        rfl
      rw [hstep, if_pos hg]
    · have hstep : (fixTrackNormStep false acc t).cat.tracks = acc.cat.tracks := by
        unfold fixTrackNormStep
        rw [if_neg hg]
      rw [hstep, if_neg hg]

theorem foldMapChain (S : List Track) :
    ∀ (T : List Track),
    S.foldl (fun T t => if trackNormGuard t then T.map (trackNormApply t) else T) T
      = T.map (trackNormChain S) := by
  induction S with
  | nil =>
    intro T
    have hid : trackNormChain [] = fun x => x := rfl
    rw [hid]
    simp
  | cons t S' ih =>
    intro T
    simp only [List.foldl_cons]
    by_cases hg : trackNormGuard t
    · rw [if_pos hg, ih, List.map_map]
      apply List.map_congr_left
      intro x _
      simp [trackNormChain, Function.comp, hg]
    · rw [if_neg hg, ih]
      apply List.map_congr_left
      intro x _
      simp [trackNormChain, hg]

theorem trackNormApply_id (t x : Track) : (trackNormApply t x).id = x.id := by
  unfold trackNormApply
  split <;> rfl

theorem chain_noop (S : List Track) :
    ∀ (x : Track), (∀ t ∈ S, t.id ≠ x.id) → trackNormChain S x = x := by
  induction S with
  | nil => intro x _; rfl
  | cons t S' ih =>
    intro x h
    unfold trackNormChain
    simp only [List.foldl_cons]
    have hne : ¬ x.id = t.id := fun he => h t (List.mem_cons_self t S') he.symm
    have hfix : (if trackNormGuard t then trackNormApply t x else x) = x := by
      unfold trackNormApply
      rw [if_neg hne]
      split <;> rfl
    rw [hfix]
    exact ih x (fun t2 ht2 => h t2 (List.mem_cons_of_mem t ht2))

theorem chain_eval (S : List Track) (x : Track) (hx : x ∈ S)
    (hnd : (S.map Track.id).Nodup) :
    trackNormChain S x = if trackNormGuard x then trackNormApply x x else x := by
  induction S with
  | nil => cases hx
  | cons t S' ih =>
    have hnd2 := List.nodup_cons.mp hnd
    rcases List.mem_cons.mp hx with rfl | hx'
    · have hni : ∀ t2 ∈ S', t2.id ≠ x.id := by
        intro t2 ht2 he
        exact hnd2.1 (he ▸ List.mem_map_of_mem Track.id ht2)
      unfold trackNormChain
      simp only [List.foldl_cons]
      by_cases hg : trackNormGuard x
      · rw [if_pos hg]
        exact chain_noop S' _ (fun t2 ht2 => by
          rw [trackNormApply_id]
          exact hni t2 ht2)
      · rw [if_neg hg]
        exact chain_noop S' x hni
    · have hne : ¬ x.id = t.id := by
        intro he
        exact hnd2.1 (he ▸ List.mem_map_of_mem Track.id hx')
      unfold trackNormChain
      simp only [List.foldl_cons]
      have hfix : (if trackNormGuard t then trackNormApply t x else x) = x := by
        unfold trackNormApply
        rw [if_neg hne]
        split <;> rfl
      rw [hfix]
      exact ih hx' hnd2.2

theorem foldSlug_tracks (A : List Artist) :
    ∀ (acc : StageResult),
    ((A.foldl (fixArtistSlugStep false) acc).cat).tracks = acc.cat.tracks := by
  induction A with
  | nil => intro acc; rfl
  | cons a A' ih =>
    intro acc
    simp only [List.foldl_cons]
    rw [ih]
    unfold fixArtistSlugStep
    by_cases hg : artistSlugGuard a
    · rw [if_pos hg]
      rfl
    · rw [if_neg hg]

theorem orphanScan_tracks (L : List SetTrack) (si ti : List String) :
    ∀ (acc : StageResult × List String),
    ((L.foldl (orphanScanStep false si ti) acc).1.cat).tracks = acc.1.cat.tracks := by
  induction L with
  | nil => intro acc; rfl
  | cons st L' ih =>
    intro acc
    simp only [List.foldl_cons]
    rw [ih]
    unfold orphanScanStep
    by_cases h1 : st.set_id ∉ si
    · rw [if_pos h1]
    · rw [if_neg h1]
      by_cases h2 : orphanTrackGuard ti st
      · rw [if_pos h2]
        rfl
      · rw [if_neg h2]

theorem orphanDelete_tracks (O : List String) :
    ∀ (acc : StageResult),
    ((O.foldl (orphanDeleteStep false) acc).cat).tracks = acc.cat.tracks := by
  induction O with
  | nil => intro acc; rfl
  | cons o O' ih =>
    intro acc
    simp only [List.foldl_cons]
    rw [ih]
    rfl

theorem fix_normalization_tracks (c : Catalog) :
    (fix_normalization c false).cat.tracks = c.tracks.map (trackNormChain c.tracks) := by
  unfold fix_normalization
  rw [orphanDelete_tracks, orphanScan_tracks, foldSlug_tracks, pass1_tracks, foldMapChain]

/-- C9, counterexample: the repair skips tracks whose recomputed
normalized title is empty (a stale stored value survives although it
differs from the recomputed empty string), and it compares against the
*stripped* stored value, so a stored value differing only by surrounding
whitespace is also left unrepaired. -/
theorem C9_counterexample :
    (let c0 : Catalog := ⟨[],
       [{ id := "t1", title := some "", title_normalized := some "junk" },
        { id := "t2", title := some "Foo", title_normalized := some " foo " }],
       [], [], [], []⟩
     ((fix_normalization c0 false).cat.tracks.map Track.title_normalized
        = [some "junk", some " foo "]) ∧
     (normalize_text "" = "" ∧ ("junk" : String) ≠ "") ∧
     (normalize_text "Foo" = "foo" ∧ (" foo " : String) ≠ "foo")) := by decide

/-- C9, amended: after the pass, every track whose title normalizes to a
non-empty string has a stored normalized title equal — up to surrounding
whitespace — to `normalize_text` of its title (the update fires exactly
when the recomputed value differs from the stripped stored value); tracks
whose titles normalize to the empty string are left verbatim.  Assumes
the store's primary-key uniqueness of track ids. -/
theorem C9_normalized_title_repair (c : Catalog)
    (hnd : (c.tracks.map Track.id).Nodup) :
    ∀ t ∈ (fix_normalization c false).cat.tracks,
      (normalize_text (t.title.getD "") ≠ "" →
        pyStripS (t.title_normalized.getD "") = normalize_text (t.title.getD "")) ∧
      (normalize_text (t.title.getD "") = "" → ∃ t0 ∈ c.tracks, t = t0) := by
  intro t ht
  rw [fix_normalization_tracks] at ht
  rcases List.mem_map.mp ht with ⟨x, hx, rfl⟩
  rw [chain_eval c.tracks x hx hnd]
  by_cases hg : trackNormGuard x
  · rw [if_pos hg]
    have happ : trackNormApply x x
        = { x with title_normalized := some (trackNormExpected x) } := by
      unfold trackNormApply
      rw [if_pos rfl]
    rw [happ]
    constructor
    · intro _
      show pyStripS (trackNormExpected x) = normalize_text (x.title.getD "")
      exact pyStripS_normalize_text _
    · intro hemp
      exfalso
      unfold trackNormGuard at hg
      rw [Bool.and_eq_true] at hg
      have := hg.1
      simp only [decide_eq_true_eq] at this
      exact this hemp
  · rw [if_neg hg]
    refine ⟨?_, fun _ => ⟨x, hx, rfl⟩⟩
    intro hne
    unfold trackNormGuard at hg
    rw [Bool.and_eq_true, not_and_or] at hg
    rcases hg with h1 | h2
    · exact absurd (by simpa using h1) (by simpa using hne)
    · have : trackNormExpected x = trackNormCurrent x := by
        by_contra hcon
        exact h2 (by simpa using hcon)
      exact this.symm

/-- Concrete catalog for the C9 witness. -/
def c9wCatalog : Catalog :=
  ⟨[], [{ id := "t1", title := some "My  Song!!", title_normalized := none }],
   [], [], [], []⟩

/-- The repaired row of `c9wCatalog` after the pass. -/
def c9wRow : Track :=
  { id := "t1", title := some "My  Song!!", title_normalized := some "my song" }

/-- Concrete instantiation of the amended C9 theorem at `c9wCatalog`. -/
theorem C9_normalized_title_repair_witness :
    (c9wCatalog.tracks.map Track.id).Nodup ∧
    pyStripS (c9wRow.title_normalized.getD "")
      = normalize_text (c9wRow.title.getD "") :=
  ⟨by decide,
   (C9_normalized_title_repair c9wCatalog (by decide) c9wRow (by decide)).1 (by decide)⟩

/-!
## Consistency Fixer part 2 (`normalize_artist_names`,
`update_counts` in daily_db_cleanup.py)
-/

/-- Python `str.split()`: words separated by whitespace runs, empties
dropped (accumulator carries the current word reversed). -/
def pyWordsAux (cur : List Char) : List Char → List (List Char)
  | [] => if cur = [] then [] else [cur.reverse]
  | c :: rest =>
    if isPySpace c then
      if cur = [] then pyWordsAux [] rest else cur.reverse :: pyWordsAux [] rest
    else pyWordsAux (c :: cur) rest

/-- Python `str.split()` on a character list. -/
def pyWords (l : List Char) : List (List Char) := pyWordsAux [] l

/-- Python `str.title()` (ASCII model): uppercase a letter that follows a
non-letter, lowercase the rest. -/
def pyTitleAux (prevCased : Bool) : List Char → List Char
  | [] => []
  | c :: rest =>
    if c.isAlpha then
      (if prevCased then c.toLower else c.toUpper) :: pyTitleAux true rest
    else c :: pyTitleAux false rest

/-- The punctuation stripped from name ends: `[,.\-:;]`. -/
def isNamePunct (c : Char) : Bool :=
  c = ',' || c = '.' || c = '-' || c = ':' || c = ';'

/-- The name-cleaning transform of `normalize_artist_names`: collapse
whitespace and strip; if the result is entirely upper-case and longer
than 3 characters, title-case each word except short (≤ 3) or allow-listed
tokens; then strip one leading and one trailing punctuation run (with
whitespace strips after each). -/
def cleanArtistName (name : String) : String :=
  let l := pyStrip (collapseRuns isPySpace ' ' false name.data)
  let l :=
    if l = l.map Char.toUpper ∧ 3 < l.length then
      List.intercalate [' ']
        ((pyWords l).map (fun w =>
          if w.length ≤ 3
              || ["DJ", "MC", "MK", "GW", "ZHU", "CID"].any (fun s => w = s.data)
            then w
            else pyTitleAux false w))
    else l
  let l := pyStrip (l.dropWhile isNamePunct)
  let l := pyStrip (rtrim isNamePunct l)
  ⟨l⟩

/-- One step of the artist-name normalization loop: skip empty names;
when the cleaned name differs, persist it together with a freshly
generated slug. -/
def normalizeNameStep (dry_run : Bool) (acc : StageResult) (a : Artist) : StageResult :=
  if a.name = "" then acc
  else if cleanArtistName a.name ≠ a.name then
    ⟨if dry_run then acc.cat
     else { acc.cat with artists := acc.cat.artists.map (fun a2 =>
        if a2.id = a.id then
          { a2 with
            name := cleanArtistName a.name,
            slug := some (generate_slug (cleanArtistName a.name)) }
        else a2) },
     acc.writes + (if dry_run then 0 else 1),
     acc.decisions ++ [Decision.fixName a.id (cleanArtistName a.name)]⟩
  else acc

/-- `normalize_artist_names`: clean every artist name in the snapshot. -/
def normalize_artist_names (c : Catalog) (dry_run : Bool) : StageResult :=
  c.artists.foldl (normalizeNameStep dry_run) ⟨c, 0, []⟩

/-- Number of live tracks whose (truthy) artist reference is `aid`. -/
def trackTally (tracks : List Track) (aid : String) : Int :=
  (tracks.countP (fun t => truthyStr t.artist_id && t.artist_id = some aid) : Int)

/-- Number of live sets whose (truthy) artist reference is `aid`. -/
def setTally (sets_data : List SetRow) (aid : String) : Int :=
  (sets_data.countP (fun s => truthyStr s.artist_id && s.artist_id = some aid) : Int)

/-- The recompute pass writes an artist iff either stored count (`or 0`)
differs from the tally. -/
def updateCountGuard (tracks : List Track) (sets_data : List SetRow) (a : Artist) : Bool :=
  trackTally tracks a.id ≠ orZero a.tracks_count
    || setTally sets_data a.id ≠ orZero a.sets_count

/-- One step of the count-recompute loop. -/
def updateCountStep (dry_run : Bool) (tracks : List Track) (sets_data : List SetRow)
    (acc : StageResult) (a : Artist) : StageResult :=
  if updateCountGuard tracks sets_data a then
    ⟨if dry_run then acc.cat
     else { acc.cat with artists := acc.cat.artists.map (fun a2 =>
        if a2.id = a.id then
          { a2 with
            tracks_count := some (trackTally tracks a.id),
            sets_count := some (setTally sets_data a.id) }
        else a2) },
     acc.writes + (if dry_run then 0 else 1),
     acc.decisions ++ [Decision.fixCounts a.id (trackTally tracks a.id)
        (setTally sets_data a.id)]⟩
  else acc

/-- `update_counts`: recompute both denormalized counts for every artist
from the snapshots of live tracks and sets. -/
def update_counts (c : Catalog) (dry_run : Bool) : StageResult :=
  let tracks := c.tracks
  let sets_data := c.sets
  c.artists.foldl (updateCountStep dry_run tracks sets_data) ⟨c, 0, []⟩

/-- The per-row effect of the count update issued for snapshot row `t`. -/
def countApply (tracks : List Track) (sets_data : List SetRow) (t x : Artist) : Artist :=
  if x.id = t.id then
    { x with
      tracks_count := some (trackTally tracks t.id),
      sets_count := some (setTally sets_data t.id) }
  else x

/-- The combined effect of the recompute loop on one stored artist row. -/
def countChain (tracks : List Track) (sets_data : List SetRow)
    (S : List Artist) (x : Artist) : Artist :=
  S.foldl (fun x t =>
    if updateCountGuard tracks sets_data t then countApply tracks sets_data t x else x) x

theorem countPass_artists (tracks : List Track) (sets_data : List SetRow)
    (S : List Artist) :
    ∀ (acc : StageResult),
    ((S.foldl (updateCountStep false tracks sets_data) acc).cat).artists
      = S.foldl (fun T t =>
          if updateCountGuard tracks sets_data t then T.map (countApply tracks sets_data t)
          else T) acc.cat.artists := by
  induction S with
  | nil => intro acc; rfl
  | cons t S' ih =>
    intro acc
    simp only [List.foldl_cons]
    rw [ih]
    by_cases hg : updateCountGuard tracks sets_data t
    · have hstep : (updateCountStep false tracks sets_data acc t).cat.artists
          = acc.cat.artists.map (countApply tracks sets_data t) := by
        unfold updateCountStep
        rw [if_pos hg]
        rfl
      rw [hstep, if_pos hg]
    · have hstep : (updateCountStep false tracks sets_data acc t).cat.artists
          = acc.cat.artists := by
        unfold updateCountStep
        rw [if_neg hg]
      rw [hstep, if_neg hg]

theorem countFoldMapChain (tracks : List Track) (sets_data : List SetRow)
    (S : List Artist) :
    ∀ (T : List Artist),
    S.foldl (fun T t =>
        if updateCountGuard tracks sets_data t then T.map (countApply tracks sets_data t)
        else T) T
      = T.map (countChain tracks sets_data S) := by
  induction S with
  | nil =>
    intro T
    have hid : countChain tracks sets_data [] = fun x => x := rfl
    rw [hid]
    simp
  | cons t S' ih =>
    intro T
    simp only [List.foldl_cons]
    by_cases hg : updateCountGuard tracks sets_data t
    · rw [if_pos hg, ih, List.map_map]
      apply List.map_congr_left
      intro x _
      simp [countChain, Function.comp, hg]
    · rw [if_neg hg, ih]
      apply List.map_congr_left
      intro x _
      simp [countChain, hg]

theorem countApply_id (tracks : List Track) (sets_data : List SetRow) (t x : Artist) :
    (countApply tracks sets_data t x).id = x.id := by
  unfold countApply
  split <;> rfl

theorem countChain_noop (tracks : List Track) (sets_data : List SetRow)
    (S : List Artist) :
    ∀ (x : Artist), (∀ t ∈ S, t.id ≠ x.id) →
      countChain tracks sets_data S x = x := by
  induction S with
  | nil => intro x _; rfl
  | cons t S' ih =>
    intro x h
    unfold countChain
    simp only [List.foldl_cons]
    have hne : ¬ x.id = t.id := fun he => h t (List.mem_cons_self t S') he.symm
    have hfix : (if updateCountGuard tracks sets_data t
        then countApply tracks sets_data t x else x) = x := by
      unfold countApply
      rw [if_neg hne]
      split <;> rfl
    rw [hfix]
    exact ih x (fun t2 ht2 => h t2 (List.mem_cons_of_mem t ht2))

theorem countChain_eval (tracks : List Track) (sets_data : List SetRow)
    (S : List Artist) (x : Artist) (hx : x ∈ S)
    (hnd : (S.map Artist.id).Nodup) :
    countChain tracks sets_data S x
      = if updateCountGuard tracks sets_data x then countApply tracks sets_data x x
        else x := by
  induction S with
  | nil => cases hx
  | cons t S' ih =>
    have hnd2 := List.nodup_cons.mp hnd
    rcases List.mem_cons.mp hx with rfl | hx'
    · have hni : ∀ t2 ∈ S', t2.id ≠ x.id := by
        intro t2 ht2 he
        exact hnd2.1 (he ▸ List.mem_map_of_mem Artist.id ht2)
      unfold countChain
      simp only [List.foldl_cons]
      by_cases hg : updateCountGuard tracks sets_data x
      · rw [if_pos hg]
        exact countChain_noop tracks sets_data S' _ (fun t2 ht2 => by
          rw [countApply_id]
          exact hni t2 ht2)
      · rw [if_neg hg]
        exact countChain_noop tracks sets_data S' x hni
    · have hne : ¬ x.id = t.id := by
        intro he
        exact hnd2.1 (he ▸ List.mem_map_of_mem Artist.id hx')
      unfold countChain
      simp only [List.foldl_cons]
      have hfix : (if updateCountGuard tracks sets_data t
          then countApply tracks sets_data t x else x) = x := by
        unfold countApply
        rw [if_neg hne]
        split <;> rfl
      rw [hfix]
      exact ih hx' hnd2.2

theorem update_counts_frame (c : Catalog) (dry_run : Bool) :
    (update_counts c dry_run).cat.tracks = c.tracks ∧
    (update_counts c dry_run).cat.sets = c.sets := by
  unfold update_counts
  generalize c.artists = S
  have : ∀ (acc : StageResult),
      ((S.foldl (updateCountStep dry_run c.tracks c.sets) acc).cat).tracks
          = acc.cat.tracks ∧
      ((S.foldl (updateCountStep dry_run c.tracks c.sets) acc).cat).sets
          = acc.cat.sets := by
    induction S with
    | nil => intro acc; exact ⟨rfl, rfl⟩
    | cons t S' ih =>
      intro acc
      simp only [List.foldl_cons]
      rcases ih (updateCountStep dry_run c.tracks c.sets acc t) with ⟨h1, h2⟩
      rw [h1, h2]
      unfold updateCountStep
      by_cases hg : updateCountGuard c.tracks c.sets t
      · rw [if_pos hg]
        cases dry_run <;> exact ⟨rfl, rfl⟩
      · rw [if_neg hg]
        exact ⟨rfl, rfl⟩
  exact this ⟨c, 0, []⟩

theorem update_counts_artists (c : Catalog) :
    (update_counts c false).cat.artists
      = c.artists.map (countChain c.tracks c.sets c.artists) := by
  unfold update_counts
  rw [countPass_artists, countFoldMapChain]

theorem countChain_id (tracks : List Track) (sets_data : List SetRow)
    (S : List Artist) :
    ∀ (x : Artist), (countChain tracks sets_data S x).id = x.id := by
  induction S with
  | nil => intro x; rfl
  | cons t S' ih =>
    intro x
    unfold countChain
    simp only [List.foldl_cons]
    by_cases hg : updateCountGuard tracks sets_data t
    · rw [if_pos hg]
      have := ih (countApply tracks sets_data t x)
      rw [countApply_id] at this
      exact this
    · rw [if_neg hg]
      exact ih x

/-- C7: the count recompute is authoritative.  It leaves tracks and sets
untouched, and afterwards every artist row has stored `tracks_count` and
`sets_count` (read with the code's `or 0` convention) equal to the number
of live track/set rows referencing that artist's id, whatever was stored
before.  Assumes the store's primary-key uniqueness of artist ids and
non-empty ids. -/
theorem C7_update_counts_authoritative (c : Catalog)
    (hnd : (c.artists.map Artist.id).Nodup) :
    ((update_counts c false).cat.tracks = c.tracks ∧
     (update_counts c false).cat.sets = c.sets) ∧
    ∀ a ∈ (update_counts c false).cat.artists, a.id ≠ "" →
      orZero a.tracks_count
          = (c.tracks.countP (fun t => t.artist_id = some a.id) : Int) ∧
      orZero a.sets_count
          = (c.sets.countP (fun s => s.artist_id = some a.id) : Int) := by
  refine ⟨update_counts_frame c false, ?_⟩
  intro a ha hid
  rw [update_counts_artists] at ha
  rcases List.mem_map.mp ha with ⟨x, hx, rfl⟩
  rw [countChain_id] at hid
  have htr : trackTally c.tracks x.id
      = (c.tracks.countP (fun t => t.artist_id = some x.id) : Int) := by
    unfold trackTally
    congr 1
    apply List.countP_congr
    intro t _
    by_cases he : t.artist_id = some x.id
    · simp [he, truthyStr, hid]
    · simp [he]
  have hst : setTally c.sets x.id
      = (c.sets.countP (fun s => s.artist_id = some x.id) : Int) := by
    unfold setTally
    congr 1
    apply List.countP_congr
    intro s _
    by_cases he : s.artist_id = some x.id
    · simp [he, truthyStr, hid]
    · simp [he]
  rw [countChain_eval c.tracks c.sets c.artists x hx hnd]
  by_cases hg : updateCountGuard c.tracks c.sets x
  · rw [if_pos hg]
    have happ : countApply c.tracks c.sets x x
        = { x with
            tracks_count := some (trackTally c.tracks x.id),
            sets_count := some (setTally c.sets x.id) } := by
      unfold countApply
      rw [if_pos rfl]
    rw [happ]
    exact ⟨htr, hst⟩
  · rw [if_neg hg]
    unfold updateCountGuard at hg
    rw [Bool.or_eq_true, not_or] at hg
    have h1 : trackTally c.tracks x.id = orZero x.tracks_count := by
      have := hg.1
      simp only [decide_eq_true_eq] at this
      exact not_not.mp this
    have h2 : setTally c.sets x.id = orZero x.sets_count := by
      have := hg.2
      simp only [decide_eq_true_eq] at this
      exact not_not.mp this
    exact ⟨h1 ▸ htr, h2 ▸ hst⟩

/-- Concrete catalog for the C7 witness: an artist with stale stored
counts 5/1 but 3 live tracks and 2 live sets. -/
def c7wCatalog : Catalog :=
  ⟨[{ id := "a1", name := "A", tracks_count := some 5, sets_count := some 1 }],
   [{ id := "t1", artist_id := some "a1" }, { id := "t2", artist_id := some "a1" },
    { id := "t3", artist_id := some "a1" }],
   [{ id := "s1", artist_id := some "a1" }, { id := "s2", artist_id := some "a1" }],
   [], [], []⟩

/-- The row of `c7wCatalog` after the recompute pass. -/
def c7wRow : Artist :=
  { id := "a1", name := "A", tracks_count := some 3, sets_count := some 2 }

/-- Concrete instantiation of the C7 theorem at `c7wCatalog`. -/
theorem C7_update_counts_authoritative_witness :
    (c7wCatalog.artists.map Artist.id).Nodup ∧
    orZero c7wRow.tracks_count
      = (c7wCatalog.tracks.countP (fun t => t.artist_id = some "a1") : Int) :=
  ⟨by decide,
   ((C7_update_counts_authoritative c7wCatalog (by decide)).2
     c7wRow (by decide) (by decide)).1⟩

/-!
## Dry-run lemmas (C6)

Each stage in dry-run mode must leave the catalog untouched, issue zero
writes, and log exactly the decision list a wet run would log on the same
catalog snapshot.
-/

theorem groupArtistDecision_small (k : String) (g : List Artist)
    (h : g.length ≤ 1) : groupArtistDecision k g = [] := by
  unfold groupArtistDecision
  have hlen := (List.perm_insertionSort artistR g).length_eq
  cases hs : List.insertionSort artistR g with
  | nil => rfl
  | cons x dups =>
    rw [hs] at hlen
    cases dups with
    | nil => rfl
    | cons y rest => simp at hlen; omega

theorem processArtistGroup_dry (k : String) (g : List Artist) (c : Catalog) :
    processArtistGroup true k g c = ⟨c, 0, groupArtistDecision k g⟩ := by
  unfold processArtistGroup
  by_cases h : g.length ≤ 1
  · rw [if_pos h, groupArtistDecision_small k g h]
  · rw [if_neg h]
    cases hs : List.insertionSort artistR g with
    | nil =>
      have hlen := (List.perm_insertionSort artistR g).length_eq
      rw [hs] at hlen
      simp at hlen
      omega
    | cons canonical dups => rfl

theorem processArtistGroup_decisions (dry_run : Bool) (k : String)
    (g : List Artist) (c : Catalog) :
    (processArtistGroup dry_run k g c).decisions = groupArtistDecision k g := by
  unfold processArtistGroup
  by_cases h : g.length ≤ 1
  · rw [if_pos h, groupArtistDecision_small k g h]
  · rw [if_neg h]
    cases hs : List.insertionSort artistR g with
    | nil =>
      have hlen := (List.perm_insertionSort artistR g).length_eq
      rw [hs] at hlen
      simp at hlen
      omega
    | cons canonical dups => cases dry_run <;> rfl

theorem dedupArtists_fold_decisions (dry_run : Bool) (as : List Artist)
    (ks : List String) :
    ∀ (st : StageResult),
    ((ks.foldl (fun (st : StageResult) k =>
        let r := processArtistGroup dry_run k (artistGroup as k) st.cat
        ⟨r.cat, st.writes + r.writes, st.decisions ++ r.decisions⟩) st).decisions)
      = st.decisions ++ ks.flatMap (fun k => groupArtistDecision k (artistGroup as k)) := by
  induction ks with
  | nil => intro st; simp
  | cons k rest ih =>
    intro st
    simp only [List.foldl_cons]
    rw [ih]
    simp only [processArtistGroup_decisions, List.flatMap_cons, List.append_assoc]

theorem dedupArtists_fold_dry (as : List Artist) (ks : List String) :
    ∀ (st : StageResult),
    ((ks.foldl (fun (st : StageResult) k =>
        let r := processArtistGroup true k (artistGroup as k) st.cat
        ⟨r.cat, st.writes + r.writes, st.decisions ++ r.decisions⟩) st).cat = st.cat) ∧
    ((ks.foldl (fun (st : StageResult) k =>
        let r := processArtistGroup true k (artistGroup as k) st.cat
        ⟨r.cat, st.writes + r.writes, st.decisions ++ r.decisions⟩) st).writes = st.writes) := by
  induction ks with
  | nil => intro st; exact ⟨rfl, rfl⟩
  | cons k rest ih =>
    intro st
    simp only [List.foldl_cons]
    have h := ih ⟨(processArtistGroup true k (artistGroup as k) st.cat).cat,
      st.writes + (processArtistGroup true k (artistGroup as k) st.cat).writes,
      st.decisions ++ (processArtistGroup true k (artistGroup as k) st.cat).decisions⟩
    refine ⟨?_, ?_⟩
    · rw [h.1]
      show (processArtistGroup true k (artistGroup as k) st.cat).cat = st.cat
      rw [processArtistGroup_dry]
    · rw [h.2]
      show st.writes + (processArtistGroup true k (artistGroup as k) st.cat).writes
        = st.writes
      rw [processArtistGroup_dry]
      rfl

theorem dedup_artists_dry_run (c : Catalog) :
    (dedup_artists c true).cat = c ∧ (dedup_artists c true).writes = 0 ∧
    (dedup_artists c true).decisions = (dedup_artists c false).decisions := by
  unfold dedup_artists
  refine ⟨(dedupArtists_fold_dry c.artists _ _).1,
          (dedupArtists_fold_dry c.artists _ _).2, ?_⟩
  rw [dedupArtists_fold_decisions, dedupArtists_fold_decisions]

theorem groupTrackDecision_small (k : String × String) (g : List Track)
    (h : g.length ≤ 1) : groupTrackDecision k g = [] := by
  unfold groupTrackDecision
  have hlen := (List.perm_insertionSort trackR g).length_eq
  cases hs : List.insertionSort trackR g with
  | nil => rfl
  | cons x dups =>
    rw [hs] at hlen
    cases dups with
    | nil => rfl
    | cons y rest => simp at hlen; omega

theorem processTrackGroup_dry (k : String × String) (g : List Track) (c : Catalog) :
    processTrackGroup true k g c = ⟨c, 0, groupTrackDecision k g⟩ := by
  unfold processTrackGroup
  by_cases h : g.length ≤ 1
  · rw [if_pos h, groupTrackDecision_small k g h]
  · rw [if_neg h]
    cases hs : List.insertionSort trackR g with
    | nil =>
      have hlen := (List.perm_insertionSort trackR g).length_eq
      rw [hs] at hlen
      simp at hlen
      omega
    | cons canonical dups => rfl

theorem processTrackGroup_decisions (dry_run : Bool) (k : String × String)
    (g : List Track) (c : Catalog) :
    (processTrackGroup dry_run k g c).decisions = groupTrackDecision k g := by
  unfold processTrackGroup
  by_cases h : g.length ≤ 1
  · rw [if_pos h, groupTrackDecision_small k g h]
  · rw [if_neg h]
    cases hs : List.insertionSort trackR g with
    | nil =>
      have hlen := (List.perm_insertionSort trackR g).length_eq
      rw [hs] at hlen
      simp at hlen
      omega
    | cons canonical dups => cases dry_run <;> rfl

theorem dedupTracks_fold_decisions (dry_run : Bool) (ts : List Track)
    (ks : List (String × String)) :
    ∀ (st : StageResult),
    ((ks.foldl (fun (st : StageResult) k =>
        let r := processTrackGroup dry_run k (trackGroup ts k) st.cat
        ⟨r.cat, st.writes + r.writes, st.decisions ++ r.decisions⟩) st).decisions)
      = st.decisions ++ ks.flatMap (fun k => groupTrackDecision k (trackGroup ts k)) := by
  induction ks with
  | nil => intro st; simp
  | cons k rest ih =>
    intro st
    simp only [List.foldl_cons]
    rw [ih]
    simp only [processTrackGroup_decisions, List.flatMap_cons, List.append_assoc]

theorem dedupTracks_fold_dry (ts : List Track) (ks : List (String × String)) :
    ∀ (st : StageResult),
    ((ks.foldl (fun (st : StageResult) k =>
        let r := processTrackGroup true k (trackGroup ts k) st.cat
        ⟨r.cat, st.writes + r.writes, st.decisions ++ r.decisions⟩) st).cat = st.cat) ∧
    ((ks.foldl (fun (st : StageResult) k =>
        let r := processTrackGroup true k (trackGroup ts k) st.cat
        ⟨r.cat, st.writes + r.writes, st.decisions ++ r.decisions⟩) st).writes = st.writes) := by
  induction ks with
  | nil => intro st; exact ⟨rfl, rfl⟩
  | cons k rest ih =>
    intro st
    simp only [List.foldl_cons]
    have h := ih ⟨(processTrackGroup true k (trackGroup ts k) st.cat).cat,
      st.writes + (processTrackGroup true k (trackGroup ts k) st.cat).writes,
      st.decisions ++ (processTrackGroup true k (trackGroup ts k) st.cat).decisions⟩
    refine ⟨?_, ?_⟩
    · rw [h.1]
      show (processTrackGroup true k (trackGroup ts k) st.cat).cat = st.cat
      rw [processTrackGroup_dry]
    · rw [h.2]
      show st.writes + (processTrackGroup true k (trackGroup ts k) st.cat).writes
        = st.writes
      rw [processTrackGroup_dry]
      rfl

theorem dedup_tracks_dry_run (c : Catalog) :
    (dedup_tracks c true).cat = c ∧ (dedup_tracks c true).writes = 0 ∧
    (dedup_tracks c true).decisions = (dedup_tracks c false).decisions := by
  unfold dedup_tracks
  refine ⟨(dedupTracks_fold_dry c.tracks _ _).1,
          (dedupTracks_fold_dry c.tracks _ _).2, ?_⟩
  rw [dedupTracks_fold_decisions, dedupTracks_fold_decisions]

theorem processSetGroup_dry (g : List SetRow) (c : Catalog) :
    processSetGroup true g c = ⟨c, 0, groupSetDecision g⟩ := by
  unfold processSetGroup groupSetDecision
  cases hs : List.insertionSort setR g with
  | nil => rfl
  | cons canonical dups => rfl

theorem processSetGroup_decisions (dry_run : Bool) (g : List SetRow) (c : Catalog) :
    (processSetGroup dry_run g c).decisions = groupSetDecision g := by
  unfold processSetGroup
  cases hs : List.insertionSort setR g with
  | nil => unfold groupSetDecision; rw [hs]
  | cons canonical dups => cases dry_run <;> rfl

theorem dedupSets_fold_decisions (dry_run : Bool) (gs : List (List SetRow)) :
    ∀ (st : StageResult),
    ((gs.foldl (fun (st : StageResult) g =>
        let r := processSetGroup dry_run g st.cat
        ⟨r.cat, st.writes + r.writes, st.decisions ++ r.decisions⟩) st).decisions)
      = st.decisions ++ gs.flatMap groupSetDecision := by
  induction gs with
  | nil => intro st; simp
  | cons g rest ih =>
    intro st
    simp only [List.foldl_cons]
    rw [ih]
    simp only [processSetGroup_decisions, List.flatMap_cons, List.append_assoc]

theorem dedupSets_fold_dry (gs : List (List SetRow)) :
    ∀ (st : StageResult),
    ((gs.foldl (fun (st : StageResult) g =>
        let r := processSetGroup true g st.cat
        ⟨r.cat, st.writes + r.writes, st.decisions ++ r.decisions⟩) st).cat = st.cat) ∧
    ((gs.foldl (fun (st : StageResult) g =>
        let r := processSetGroup true g st.cat
        ⟨r.cat, st.writes + r.writes, st.decisions ++ r.decisions⟩) st).writes = st.writes) := by
  induction gs with
  | nil => intro st; exact ⟨rfl, rfl⟩
  | cons g rest ih =>
    intro st
    simp only [List.foldl_cons]
    have h := ih ⟨(processSetGroup true g st.cat).cat,
      st.writes + (processSetGroup true g st.cat).writes,
      st.decisions ++ (processSetGroup true g st.cat).decisions⟩
    refine ⟨?_, ?_⟩
    · rw [h.1]
      show (processSetGroup true g st.cat).cat = st.cat
      rw [processSetGroup_dry]
    · rw [h.2]
      show st.writes + (processSetGroup true g st.cat).writes = st.writes
      rw [processSetGroup_dry]
      rfl

theorem dedup_sets_dry_run (c : Catalog) :
    (dedup_sets c true).cat = c ∧ (dedup_sets c true).writes = 0 ∧
    (dedup_sets c true).decisions = (dedup_sets c false).decisions := by
  unfold dedup_sets
  refine ⟨(dedupSets_fold_dry _ _).1, (dedupSets_fold_dry _ _).2, ?_⟩
  rw [dedupSets_fold_decisions, dedupSets_fold_decisions]

/-- Decisions logged by the normalized-title repair loop over snapshot `S`. -/
def trackNormDecisions (S : List Track) : List Decision :=
  (S.filter trackNormGuard).map (fun t => Decision.fixTrackNorm t.id (trackNormExpected t))

/-- Decisions logged by the slug repair loop over snapshot `A`. -/
def slugDecisions (A : List Artist) : List Decision :=
  (A.filter artistSlugGuard).map (fun a => Decision.fixArtistSlug a.id (generate_slug a.name))

/-- Null-out decisions of the orphan scan. -/
def scanNullDecisions (si ti : List String) (L : List SetTrack) : List Decision :=
  (L.filter (fun st => ¬(st.set_id ∉ si) ∧ orphanTrackGuard ti st)).map
    (fun st => Decision.nullTrackRef st.id)

/-- Ids queued for deletion by the orphan scan. -/
def scanOrphanIds (si : List String) (L : List SetTrack) : List String :=
  (L.filter (fun st => st.set_id ∉ si)).map SetTrack.id

theorem foldTrackNorm_decisions (dry_run : Bool) (S : List Track) :
    ∀ (acc : StageResult),
    (S.foldl (fixTrackNormStep dry_run) acc).decisions
      = acc.decisions ++ trackNormDecisions S := by
  induction S with
  | nil => intro acc; simp [trackNormDecisions]
  | cons t S' ih =>
    intro acc
    simp only [List.foldl_cons]
    rw [ih]
    unfold trackNormDecisions fixTrackNormStep
    by_cases hg : trackNormGuard t
    · rw [if_pos hg, List.filter_cons_of_pos hg]
      simp [List.append_assoc, trackNormDecisions]
    · rw [if_neg hg, List.filter_cons_of_neg hg]

theorem foldTrackNorm_cat_dry (S : List Track) :
    ∀ (acc : StageResult), (S.foldl (fixTrackNormStep true) acc).cat = acc.cat := by
  induction S with
  | nil => intro acc; rfl
  | cons t S' ih =>
    intro acc
    simp only [List.foldl_cons]
    rw [ih]
    unfold fixTrackNormStep
    by_cases hg : trackNormGuard t
    · rw [if_pos hg]
      rfl
    · rw [if_neg hg]

theorem foldTrackNorm_writes_dry (S : List Track) :
    ∀ (acc : StageResult), (S.foldl (fixTrackNormStep true) acc).writes = acc.writes := by
  induction S with
  | nil => intro acc; rfl
  | cons t S' ih =>
    intro acc
    simp only [List.foldl_cons]
    rw [ih]
    unfold fixTrackNormStep
    by_cases hg : trackNormGuard t
    · rw [if_pos hg]
      rfl
    · rw [if_neg hg]

theorem foldTrackNorm_frames (dry_run : Bool) (S : List Track) :
    ∀ (acc : StageResult),
    (S.foldl (fixTrackNormStep dry_run) acc).cat.sets = acc.cat.sets ∧
    (S.foldl (fixTrackNormStep dry_run) acc).cat.set_tracks = acc.cat.set_tracks ∧
    (S.foldl (fixTrackNormStep dry_run) acc).cat.artists = acc.cat.artists := by
  induction S with
  | nil => intro acc; exact ⟨rfl, rfl, rfl⟩
  | cons t S' ih =>
    intro acc
    simp only [List.foldl_cons]
    rcases ih (fixTrackNormStep dry_run acc t) with ⟨h1, h2, h3⟩
    rw [h1, h2, h3]
    unfold fixTrackNormStep
    by_cases hg : trackNormGuard t
    · rw [if_pos hg]
      cases dry_run <;> exact ⟨rfl, rfl, rfl⟩
    · rw [if_neg hg]
      exact ⟨rfl, rfl, rfl⟩

theorem foldSlug_decisions (dry_run : Bool) (A : List Artist) :
    ∀ (acc : StageResult),
    (A.foldl (fixArtistSlugStep dry_run) acc).decisions
      = acc.decisions ++ slugDecisions A := by
  induction A with
  | nil => intro acc; simp [slugDecisions]
  | cons a A' ih =>
    intro acc
    simp only [List.foldl_cons]
    rw [ih]
    unfold slugDecisions fixArtistSlugStep
    by_cases hg : artistSlugGuard a
    · rw [if_pos hg, List.filter_cons_of_pos hg]
      simp [List.append_assoc, slugDecisions]
    · rw [if_neg hg, List.filter_cons_of_neg hg]

theorem foldSlug_cat_dry (A : List Artist) :
    ∀ (acc : StageResult), (A.foldl (fixArtistSlugStep true) acc).cat = acc.cat := by
  induction A with
  | nil => intro acc; rfl
  | cons a A' ih =>
    intro acc
    simp only [List.foldl_cons]
    rw [ih]
    unfold fixArtistSlugStep
    by_cases hg : artistSlugGuard a
    · rw [if_pos hg]
      rfl
    · rw [if_neg hg]

theorem foldSlug_writes_dry (A : List Artist) :
    ∀ (acc : StageResult), (A.foldl (fixArtistSlugStep true) acc).writes = acc.writes := by
  induction A with
  | nil => intro acc; rfl
  | cons a A' ih =>
    intro acc
    simp only [List.foldl_cons]
    rw [ih]
    unfold fixArtistSlugStep
    by_cases hg : artistSlugGuard a
    · rw [if_pos hg]
      rfl
    · rw [if_neg hg]

theorem foldSlug_frames (dry_run : Bool) (A : List Artist) :
    ∀ (acc : StageResult),
    (A.foldl (fixArtistSlugStep dry_run) acc).cat.sets = acc.cat.sets ∧
    (A.foldl (fixArtistSlugStep dry_run) acc).cat.set_tracks = acc.cat.set_tracks := by
  induction A with
  | nil => intro acc; exact ⟨rfl, rfl⟩
  | cons a A' ih =>
    intro acc
    simp only [List.foldl_cons]
    rcases ih (fixArtistSlugStep dry_run acc a) with ⟨h1, h2⟩
    rw [h1, h2]
    unfold fixArtistSlugStep
    by_cases hg : artistSlugGuard a
    · rw [if_pos hg]
      cases dry_run <;> exact ⟨rfl, rfl⟩
    · rw [if_neg hg]
      exact ⟨rfl, rfl⟩

theorem scan_out (dry_run : Bool) (si ti : List String) (L : List SetTrack) :
    ∀ (acc : StageResult × List String),
    ((L.foldl (orphanScanStep dry_run si ti) acc).1.decisions
        = acc.1.decisions ++ scanNullDecisions si ti L) ∧
    ((L.foldl (orphanScanStep dry_run si ti) acc).2
        = acc.2 ++ scanOrphanIds si L) := by
  induction L with
  | nil => intro acc; simp [scanNullDecisions, scanOrphanIds]
  | cons st L' ih =>
    intro acc
    simp only [List.foldl_cons]
    by_cases hd : st.set_id ∉ si
    · have hstep : orphanScanStep dry_run si ti acc st = (acc.1, acc.2 ++ [st.id]) := by
        unfold orphanScanStep
        rw [if_pos hd]
      rw [hstep]
      rcases ih (acc.1, acc.2 ++ [st.id]) with ⟨h1, h2⟩
      rw [h1, h2]
      constructor
      · unfold scanNullDecisions
        rw [List.filter_cons_of_neg (by
          simp only [decide_eq_true_eq]
          intro hcon
          exact hcon.1 hd)]
      · unfold scanOrphanIds
        rw [List.filter_cons_of_pos (by
          simp only [decide_eq_true_eq]
          exact hd)]
        simp [List.append_assoc]
    · by_cases hg : orphanTrackGuard ti st
      · have hd1 : (orphanScanStep dry_run si ti acc st).1.decisions
            = acc.1.decisions ++ [Decision.nullTrackRef st.id] := by
          unfold orphanScanStep
          rw [if_neg hd, if_pos hg]
        have hd2 : (orphanScanStep dry_run si ti acc st).2 = acc.2 := by
          unfold orphanScanStep
          rw [if_neg hd, if_pos hg]
        rcases ih (orphanScanStep dry_run si ti acc st) with ⟨h1, h2⟩
        rw [h1, h2, hd1, hd2]
        constructor
        · unfold scanNullDecisions
          rw [List.filter_cons_of_pos (by
            simp only [decide_eq_true_eq]
            exact ⟨hd, hg⟩)]
          simp [List.append_assoc]
        · unfold scanOrphanIds
          rw [List.filter_cons_of_neg (by
            simp only [decide_eq_true_eq]
            exact hd)]
      · have hstep : orphanScanStep dry_run si ti acc st = acc := by
          unfold orphanScanStep
          rw [if_neg hd, if_neg hg]
        rw [hstep]
        rcases ih acc with ⟨h1, h2⟩
        rw [h1, h2]
        constructor
        · unfold scanNullDecisions
          rw [List.filter_cons_of_neg (by
            simp only [decide_eq_true_eq]
            intro hcon
            exact hg hcon.2)]
        · unfold scanOrphanIds
          rw [List.filter_cons_of_neg (by
            simp only [decide_eq_true_eq]
            exact hd)]

theorem scan_cat_dry (si ti : List String) (L : List SetTrack) :
    ∀ (acc : StageResult × List String),
    (L.foldl (orphanScanStep true si ti) acc).1.cat = acc.1.cat := by
  induction L with
  | nil => intro acc; rfl
  | cons st L' ih =>
    intro acc
    simp only [List.foldl_cons]
    rw [ih]
    unfold orphanScanStep
    by_cases hd : st.set_id ∉ si
    · rw [if_pos hd]
    · rw [if_neg hd]
      by_cases hg : orphanTrackGuard ti st
      · rw [if_pos hg]
        rfl
      · rw [if_neg hg]

theorem scan_writes_dry (si ti : List String) (L : List SetTrack) :
    ∀ (acc : StageResult × List String),
    (L.foldl (orphanScanStep true si ti) acc).1.writes = acc.1.writes := by
  induction L with
  | nil => intro acc; rfl
  | cons st L' ih =>
    intro acc
    simp only [List.foldl_cons]
    rw [ih]
    unfold orphanScanStep
    by_cases hd : st.set_id ∉ si
    · rw [if_pos hd]
    · rw [if_neg hd]
      by_cases hg : orphanTrackGuard ti st
      · rw [if_pos hg]
        rfl
      · rw [if_neg hg]

theorem delete_decisions (dry_run : Bool) (O : List String) :
    ∀ (acc : StageResult),
    (O.foldl (orphanDeleteStep dry_run) acc).decisions
      = acc.decisions ++ O.map Decision.deleteOrphan := by
  induction O with
  | nil => intro acc; simp
  | cons o O' ih =>
    intro acc
    simp only [List.foldl_cons]
    rw [ih]
    simp [orphanDeleteStep, List.append_assoc]

theorem delete_cat_dry (O : List String) :
    ∀ (acc : StageResult),
    (O.foldl (orphanDeleteStep true) acc).cat = acc.cat := by
  induction O with
  | nil => intro acc; rfl
  | cons o O' ih =>
    intro acc
    simp only [List.foldl_cons]
    rw [ih]
    rfl

theorem delete_writes_dry (O : List String) :
    ∀ (acc : StageResult),
    (O.foldl (orphanDeleteStep true) acc).writes = acc.writes := by
  induction O with
  | nil => intro acc; rfl
  | cons o O' ih =>
    intro acc
    simp only [List.foldl_cons]
    rw [ih]
    rfl

theorem scan_decisions (dry_run : Bool) (si ti : List String) (L : List SetTrack)
    (acc : StageResult × List String) :
    (L.foldl (orphanScanStep dry_run si ti) acc).1.decisions
      = acc.1.decisions ++ scanNullDecisions si ti L :=
  (scan_out dry_run si ti L acc).1

theorem scan_orphans (dry_run : Bool) (si ti : List String) (L : List SetTrack)
    (acc : StageResult × List String) :
    (L.foldl (orphanScanStep dry_run si ti) acc).2 = acc.2 ++ scanOrphanIds si L :=
  (scan_out dry_run si ti L acc).2

theorem foldTrackNorm_sets (dry_run : Bool) (S : List Track) (acc : StageResult) :
    (S.foldl (fixTrackNormStep dry_run) acc).cat.sets = acc.cat.sets :=
  (foldTrackNorm_frames dry_run S acc).1

theorem foldTrackNorm_setTracks (dry_run : Bool) (S : List Track) (acc : StageResult) :
    (S.foldl (fixTrackNormStep dry_run) acc).cat.set_tracks = acc.cat.set_tracks :=
  (foldTrackNorm_frames dry_run S acc).2.1

theorem foldTrackNorm_artists (dry_run : Bool) (S : List Track) (acc : StageResult) :
    (S.foldl (fixTrackNormStep dry_run) acc).cat.artists = acc.cat.artists :=
  (foldTrackNorm_frames dry_run S acc).2.2

theorem foldSlug_sets (dry_run : Bool) (A : List Artist) (acc : StageResult) :
    (A.foldl (fixArtistSlugStep dry_run) acc).cat.sets = acc.cat.sets :=
  (foldSlug_frames dry_run A acc).1

theorem foldSlug_setTracks (dry_run : Bool) (A : List Artist) (acc : StageResult) :
    (A.foldl (fixArtistSlugStep dry_run) acc).cat.set_tracks = acc.cat.set_tracks :=
  (foldSlug_frames dry_run A acc).2

theorem fix_normalization_dry_run (c : Catalog) :
    (fix_normalization c true).cat = c ∧ (fix_normalization c true).writes = 0 ∧
    (fix_normalization c true).decisions = (fix_normalization c false).decisions := by
  unfold fix_normalization
  refine ⟨?_, ?_, ?_⟩
  · rw [delete_cat_dry, scan_cat_dry, foldSlug_cat_dry, foldTrackNorm_cat_dry]
  · rw [delete_writes_dry, scan_writes_dry, foldSlug_writes_dry, foldTrackNorm_writes_dry]
  · rw [delete_decisions, delete_decisions, scan_decisions, scan_decisions,
      scan_orphans, scan_orphans, foldSlug_decisions, foldSlug_decisions,
      foldTrackNorm_decisions, foldTrackNorm_decisions,
      foldTrackNorm_cat_dry, foldSlug_cat_dry, foldTrackNorm_cat_dry,
      foldTrackNorm_artists, foldSlug_sets, foldSlug_setTracks,
      foldTrackNorm_sets, foldTrackNorm_setTracks]

/-- Decisions logged by the name-normalization loop over snapshot `A`. -/
def nameDecisions (A : List Artist) : List Decision :=
  (A.filter (fun a => a.name ≠ "" ∧ cleanArtistName a.name ≠ a.name)).map
    (fun a => Decision.fixName a.id (cleanArtistName a.name))

theorem foldName_decisions (dry_run : Bool) (A : List Artist) :
    ∀ (acc : StageResult),
    (A.foldl (normalizeNameStep dry_run) acc).decisions
      = acc.decisions ++ nameDecisions A := by
  induction A with
  | nil => intro acc; simp [nameDecisions]
  | cons a A' ih =>
    intro acc
    simp only [List.foldl_cons]
    rw [ih]
    unfold nameDecisions normalizeNameStep
    by_cases h0 : a.name = ""
    · rw [if_pos h0, List.filter_cons_of_neg (by
        simp only [decide_eq_true_eq]
        intro hcon
        exact hcon.1 h0)]
    · rw [if_neg h0]
      by_cases h1 : cleanArtistName a.name ≠ a.name
      · rw [if_pos h1, List.filter_cons_of_pos (by
          simp only [decide_eq_true_eq]
          exact ⟨h0, h1⟩)]
        simp [List.append_assoc, nameDecisions]
      · rw [if_neg h1, List.filter_cons_of_neg (by
          simp only [decide_eq_true_eq]
          intro hcon
          exact h1 hcon.2)]

theorem foldName_cat_dry (A : List Artist) :
    ∀ (acc : StageResult), (A.foldl (normalizeNameStep true) acc).cat = acc.cat := by
  induction A with
  | nil => intro acc; rfl
  | cons a A' ih =>
    intro acc
    simp only [List.foldl_cons]
    rw [ih]
    unfold normalizeNameStep
    by_cases h0 : a.name = ""
    · rw [if_pos h0]
    · rw [if_neg h0]
      by_cases h1 : cleanArtistName a.name ≠ a.name
      · rw [if_pos h1]
        rfl
      · rw [if_neg h1]

theorem foldName_writes_dry (A : List Artist) :
    ∀ (acc : StageResult), (A.foldl (normalizeNameStep true) acc).writes = acc.writes := by
  induction A with
  | nil => intro acc; rfl
  | cons a A' ih =>
    intro acc
    simp only [List.foldl_cons]
    rw [ih]
    unfold normalizeNameStep
    by_cases h0 : a.name = ""
    · rw [if_pos h0]
    · rw [if_neg h0]
      by_cases h1 : cleanArtistName a.name ≠ a.name
      · rw [if_pos h1]
        rfl
      · rw [if_neg h1]

theorem normalize_artist_names_dry_run (c : Catalog) :
    (normalize_artist_names c true).cat = c ∧
    (normalize_artist_names c true).writes = 0 ∧
    (normalize_artist_names c true).decisions
      = (normalize_artist_names c false).decisions := by
  unfold normalize_artist_names
  exact ⟨foldName_cat_dry c.artists _, foldName_writes_dry c.artists _,
    by rw [foldName_decisions, foldName_decisions]⟩

/-- Decisions logged by the count-recompute loop over snapshot `A`. -/
def countDecisions (tracks : List Track) (sets_data : List SetRow)
    (A : List Artist) : List Decision :=
  (A.filter (updateCountGuard tracks sets_data)).map
    (fun a => Decision.fixCounts a.id (trackTally tracks a.id) (setTally sets_data a.id))

theorem foldCount_decisions (dry_run : Bool) (tracks : List Track)
    (sets_data : List SetRow) (A : List Artist) :
    ∀ (acc : StageResult),
    (A.foldl (updateCountStep dry_run tracks sets_data) acc).decisions
      = acc.decisions ++ countDecisions tracks sets_data A := by
  induction A with
  | nil => intro acc; simp [countDecisions]
  | cons a A' ih =>
    intro acc
    simp only [List.foldl_cons]
    rw [ih]
    unfold countDecisions updateCountStep
    by_cases hg : updateCountGuard tracks sets_data a
    · rw [if_pos hg, List.filter_cons_of_pos hg]
      simp [List.append_assoc, countDecisions]
    · rw [if_neg hg, List.filter_cons_of_neg hg]

theorem foldCount_cat_dry (tracks : List Track) (sets_data : List SetRow)
    (A : List Artist) :
    ∀ (acc : StageResult),
    (A.foldl (updateCountStep true tracks sets_data) acc).cat = acc.cat := by
  induction A with
  | nil => intro acc; rfl
  | cons a A' ih =>
    intro acc
    simp only [List.foldl_cons]
    rw [ih]
    unfold updateCountStep
    by_cases hg : updateCountGuard tracks sets_data a
    · rw [if_pos hg]
      rfl
    · rw [if_neg hg]

theorem foldCount_writes_dry (tracks : List Track) (sets_data : List SetRow)
    (A : List Artist) :
    ∀ (acc : StageResult),
    (A.foldl (updateCountStep true tracks sets_data) acc).writes = acc.writes := by
  induction A with
  | nil => intro acc; rfl
  | cons a A' ih =>
    intro acc
    simp only [List.foldl_cons]
    rw [ih]
    unfold updateCountStep
    by_cases hg : updateCountGuard tracks sets_data a
    · rw [if_pos hg]
      rfl
    · rw [if_neg hg]

theorem update_counts_dry_run (c : Catalog) :
    (update_counts c true).cat = c ∧ (update_counts c true).writes = 0 ∧
    (update_counts c true).decisions = (update_counts c false).decisions := by
  unfold update_counts
  exact ⟨foldCount_cat_dry c.tracks c.sets c.artists _,
    foldCount_writes_dry c.tracks c.sets c.artists _,
    by rw [foldCount_decisions, foldCount_decisions]⟩

/-- C6: dry-run makes no writes and the same decisions.  For every catalog
and every stage (artist, track, and set dedup, normalization fixes, name
normalization, count recompute), running with `dry_run = true` leaves the
catalog unchanged, issues zero insert/update/delete calls, and logs
exactly the same grouping/canonical-selection/fix decisions as a wet run
on the same catalog snapshot. -/
theorem C6_dry_run_no_writes_same_decisions (c : Catalog) :
    ((dedup_artists c true).cat = c ∧ (dedup_artists c true).writes = 0 ∧
      (dedup_artists c true).decisions = (dedup_artists c false).decisions) ∧
    ((dedup_tracks c true).cat = c ∧ (dedup_tracks c true).writes = 0 ∧
      (dedup_tracks c true).decisions = (dedup_tracks c false).decisions) ∧
    ((dedup_sets c true).cat = c ∧ (dedup_sets c true).writes = 0 ∧
      (dedup_sets c true).decisions = (dedup_sets c false).decisions) ∧
    ((fix_normalization c true).cat = c ∧ (fix_normalization c true).writes = 0 ∧
      (fix_normalization c true).decisions = (fix_normalization c false).decisions) ∧
    ((normalize_artist_names c true).cat = c ∧
      (normalize_artist_names c true).writes = 0 ∧
      (normalize_artist_names c true).decisions
        = (normalize_artist_names c false).decisions) ∧
    ((update_counts c true).cat = c ∧ (update_counts c true).writes = 0 ∧
      (update_counts c true).decisions = (update_counts c false).decisions) :=
  ⟨dedup_artists_dry_run c, dedup_tracks_dry_run c, dedup_sets_dry_run c,
   fix_normalization_dry_run c, normalize_artist_names_dry_run c,
   update_counts_dry_run c⟩

end DbCleanup
